import Mathlib

/-!
Shallow embedding of the mGFD repository (meshless Generalized Finite
Differences over 2D point clouds) and verification of its specification.

Conventions of the embedding:
* Machine floats are modelled by `ℚ`; all the algebraic identities claimed by
  the spec (row sums, update-matrix formulas, scheme equalities) are exact
  rational facts about the code's arithmetic.
* A node of the cloud is the triple `(x, y, tag)` of the `m × 3` array `p`.
* numpy 2D arrays are `List (List ℚ)`; entry access is `mget` (out-of-range
  reads default to `0`, which is never exercised by well-shaped runs).
* `np.linalg.pinv` is an external library call; it is an abstract parameter
  `pinv : List (List ℚ) → List (List ℚ)` of every function that uses it.
  numpy's contract that `pinv` of an `r × c` array has shape `c × r` is used
  only to read its entries back (`mget`), never assumed as a hypothesis.
* numpy integer indexing wraps one level of negative indices
  (`a[-1]` is the last entry) and raises `IndexError` farther out; this is
  `readIdx`.  Fallible code runs in `Except Err`.
* Distances: the sources compare `sqrt(dx² + dy²) < dist` where `dist ≥ 0`;
  the embedding carries the squares (`dSq`, `distSq`) and compares them,
  which is equivalent because squaring is monotone on nonnegatives.  Sorting
  by distance equals sorting by squared distance for the same reason.
-/

namespace MGFD

/-- One node of the `m × 3` point array: coordinates and boundary tag. -/
abbrev Node : Type := ℚ × ℚ × ℚ

/-- Errors the Python sources can raise on the modelled paths. -/
inductive Err : Type where
  /-- numpy `IndexError`: integer index outside `[-m, m)`. -/
  | indexOutOfRange : Err
  /-- numpy `ValueError` from `@` on mismatched inner dimensions. -/
  | shapeMismatch : Err
  /-- Python `UnboundLocalError`: a local name read before assignment. -/
  | unboundLocal : Err
deriving DecidableEq

/-- x coordinate of node `i` (column 0 of `p`). -/
def xOf (p : List Node) (i : ℕ) : ℚ := (p.getD i (0, 0, 0)).1

/-- y coordinate of node `i` (column 1 of `p`). -/
def yOf (p : List Node) (i : ℕ) : ℚ := (p.getD i (0, 0, 0)).2.1

/-- Boundary tag of node `i` (column 2 of `p`). -/
def tagOf (p : List Node) (i : ℕ) : ℚ := (p.getD i (0, 0, 0)).2.2

/-- Matrices as lists of rows of rationals. -/
abbrev Matq : Type := List (List ℚ)

/-- Entry `(i, j)` of a matrix (`0` outside the stored shape). -/
def mget (A : Matq) (i j : ℕ) : ℚ := (A.getD i []).getD j 0

/-- `np.zeros([m, m])`. -/
def zerosM (m : ℕ) : Matq := List.replicate m (List.replicate m 0)

/-- Write `v` at entry `(i, j)` (no effect outside the stored shape). -/
def Kset (A : Matq) (i j : ℕ) (v : ℚ) : Matq :=
  A.set i ((A.getD i []).set j v)

/-- numpy integer indexing into an axis of length `m`: indices in `[0, m)`
are taken as is, indices in `[-m, 0)` wrap to `m + z`, anything else raises
`IndexError`. -/
def readIdx (m : ℕ) (z : ℤ) : Except Err ℕ :=
  if 0 ≤ z ∧ z < (m : ℤ) then .ok z.toNat
  else if -(m : ℤ) ≤ z ∧ z < 0 then .ok ((m : ℤ) + z).toNat
  else .error .indexOutOfRange

/-- A Python `for` loop whose body may raise: the first error aborts the
whole loop, otherwise the results are collected in order. -/
def mapExcept {α β : Type} (f : α → Except Err β) : List α → Except Err (List β)
  | [] => .ok []
  | a :: l => do
    let b ← f a
    let t ← mapExcept f l
    pure (b :: t)

/-- A Python `for` loop threading a state, whose body may raise: the first
error aborts the whole loop. -/
def foldExcept {σ α : Type} (f : σ → α → Except Err σ) (init : σ) :
    List α → Except Err σ
  | [] => .ok init
  | a :: l => do
    let s ← f init a
    foldExcept f s l

theorem mapExcept_nil {α β : Type} (f : α → Except Err β) :
    mapExcept f [] = .ok [] := rfl

theorem mapExcept_cons {α β : Type} (f : α → Except Err β) (a : α) (l : List α) :
    mapExcept f (a :: l) =
      f a >>= fun b => mapExcept f l >>= fun t => pure (b :: t) := rfl

theorem foldExcept_nil {σ α : Type} (f : σ → α → Except Err σ) (init : σ) :
    foldExcept f init [] = .ok init := rfl

theorem foldExcept_cons {σ α : Type} (f : σ → α → Except Err σ) (init : σ)
    (a : α) (l : List α) :
    foldExcept f init (a :: l) =
      f init a >>= fun s => foldExcept f s l := rfl

theorem ok_bind {α β : Type} (a : α) (f : α → Except Err β) :
    (Except.ok a >>= f : Except Err β) = f a := rfl

theorem error_bind {α β : Type} (e : Err) (f : α → Except Err β) :
    (Except.error e >>= f : Except Err β) = Except.error e := rfl

/-- The live entries of a neighbor row: those different from the
sentinel. -/
def lives (row : List ℤ) : List ℤ := row.filter (fun z => decide (z ≠ -1))

/-- The live-neighbor count `sum(vec[i,:] != -1)` of Gammas.py line 43. -/
def liveCount (row : List ℤ) : ℕ := row.countP (fun z => decide (z ≠ -1))

namespace Gammas

/-- The `5 × n` local design matrix of `Gammas.Cloud` line 50:
`np.vstack([[dx], [dy], [dx**2], [dx*dy], [dy**2]])` for the list of
per-neighbor offsets `(dx_j, dy_j)`. -/
def designM (dxy : List (ℚ × ℚ)) : Matq :=
  [dxy.map Prod.fst,
   dxy.map Prod.snd,
   dxy.map (fun q => q.1 * q.1),
   dxy.map (fun q => q.1 * q.2),
   dxy.map (fun q => q.2 * q.2)]

/-- One iteration of the node loop of `Gammas.Cloud` (lines 41-61).  The
state is the pair `(K, nvec)`: the Python variable `nvec` starts as the
column count of `vec` and is reassigned to the live-neighbor count of each
interior node, and the boundary branch reads whatever value it currently
has.  The interior branch reads the neighbor offsets (wrapping negative
indices), applies `pinv` to the design matrix — numpy gives it shape
`(n, 5)` — and multiplies by `L`, which raises `ValueError` unless
`L` has 5 entries; `Gamma = [-sum(YY), YY]`, written into row `i`. -/
def cloudStep (pinv : Matq → Matq) (p : List Node) (vec : List (List ℤ))
    (L : List ℚ) (st : Matq × ℕ) (i : ℕ) : Except Err (Matq × ℕ) :=
  let m := p.length
  let row := vec.getD i []
  if tagOf p i = 0 then do
    let n := liveCount row
    let dxy ← mapExcept (fun j => do
      let v1 ← readIdx m (row.getD j (-1))
      pure (xOf p v1 - xOf p i, yOf p v1 - yOf p i)) (List.range n)
    let Mdag := pinv (designM dxy)
    if L.length = 5 then
      let YY := (List.range n).map (fun j =>
        ((List.range 5).map (fun k => mget Mdag j k * L.getD k 0)).sum)
      let K1 := Kset st.1 i i (-(YY.sum))
      let K2 ← foldExcept (fun Kc j => do
        let c ← readIdx m (row.getD j (-1))
        pure (Kset Kc i c (YY.getD j 0))) K1 (List.range n)
      pure (K2, n)
    else .error .shapeMismatch
  else if tagOf p i = 1 ∨ tagOf p i = 2 then do
    let K1 := Kset st.1 i i 1
    let K2 ← foldExcept (fun Kc j => do
      let c ← readIdx m (row.getD j (-1))
      pure (Kset Kc i c 0)) K1 (List.range st.2)
    pure (K2, st.2)
  else pure st

/-- `Gammas.Cloud(p, vec, L)`: Gamma computation and assembly of the global
`m × m` matrix `K` (Scripts/Gammas.py lines 21-62). -/
def Cloud (pinv : Matq → Matq) (p : List Node) (vec : List (List ℤ))
    (L : List ℚ) : Except Err Matq := do
  let st ← foldExcept (cloudStep pinv p vec L)
    (zerosM p.length, (vec.headD []).length) (List.range p.length)
  pure st.1

/-- `Gammas.RHS(p, boun_n, inne_n, phi, f)`: right-hand-side vector with
`R[inne_n] = f(x, y)` and `R[boun_n] = phi(x, y)` (lines 64-71); the index
masks are `p[:,2] == 0` and `(p[:,2] == 1) | (p[:,2] == 2)` as built by the
callers in mGFD.py. -/
def RHS (p : List Node) (phi f : ℚ → ℚ → ℚ) : List ℚ :=
  (List.range p.length).map (fun i =>
    if tagOf p i = 0 then f (xOf p i) (yOf p i)
    else if tagOf p i = 1 ∨ tagOf p i = 2 then phi (xOf p i) (yOf p i)
    else 0)

end Gammas

namespace Neighbors

/-- Squared planar distance between nodes `i` and `j`, using only the
coordinate columns `p[:,0]` and `p[:,1]`. -/
def dSq (p : List Node) (i j : ℕ) : ℚ :=
  (xOf p i - xOf p j) * (xOf p i - xOf p j) +
    (yOf p i - yOf p j) * (yOf p i - yOf p j)

/-- Squared distance over all three columns of a row of `p`.  The
vectorized `find_distances` (mode 2) computes `p_expanded - p` on the whole
`m × 3` array, so its pairwise distances also include the difference of the
boundary tags. -/
def dSq3 (p : List Node) (i j : ℕ) : ℚ :=
  dSq p i j + (tagOf p i - tagOf p j) * (tagOf p i - tagOf p j)

/-- Left fold of `min` with a default for the empty list. -/
def minListD (l : List ℚ) (d : ℚ) : ℚ :=
  match l with
  | [] => d
  | a :: t => t.foldl min a

/-- Left fold of `max` with a default for the empty list. -/
def maxListD (l : List ℚ) (d : ℚ) : ℚ :=
  match l with
  | [] => d
  | a :: t => t.foldl max a

/-- Square of the cutoff radius of `find_distances(p, mode=2)` (lines
127-134): the diagonal of the pairwise squared-distance matrix is set to
infinity, so row `i` contributes `min over j ≠ i of dSq3 i j`, and
`dist = (3/2) * max_i sqrt(min_i)`; its square is `(9/4) * max_i min_i`.
For a single-node cloud the true value is infinite; the returned default is
irrelevant because no candidate neighbor exists. -/
def find_distancesSq (p : List Node) : ℚ :=
  let m := p.length
  (9 / 4) * maxListD ((List.range m).map (fun i =>
    minListD (((List.range m).filter (fun j => decide (j ≠ i))).map
      (fun j => dSq3 p i j)) 0)) 0

/-- Ordering by distance, ties by ascending node index.  Python sorts the
`(d, j)` tuples of the brute-force strategy lexicographically, which is
exactly this order; the KDTree query of mode 3 is modelled with the same
order. -/
def pairLe (u v : ℚ × ℕ) : Prop :=
  u.1 < v.1 ∨ (u.1 = v.1 ∧ u.2 ≤ v.2)

instance : DecidableRel pairLe := fun u v => by
  unfold pairLe; infer_instance

instance : IsTotal (ℚ × ℕ) pairLe := ⟨fun u v => by
  unfold pairLe
  rcases lt_trichotomy u.1 v.1 with h | h | h
  · exact Or.inl (Or.inl h)
  · rcases Nat.le_total u.2 v.2 with h2 | h2
    · exact Or.inl (Or.inr ⟨h, h2⟩)
    · exact Or.inr (Or.inr ⟨h.symm, h2⟩)
  · exact Or.inr (Or.inl h)⟩

instance : IsTrans (ℚ × ℕ) pairLe := ⟨fun u v w huv hvw => by
  unfold pairLe at *
  rcases huv with h1 | ⟨h1, h1n⟩ <;> rcases hvw with h2 | ⟨h2, h2n⟩
  · exact Or.inl (h1.trans h2)
  · exact Or.inl (by rw [← h2]; exact h1)
  · exact Or.inl (by rw [h1]; exact h2)
  · exact Or.inr ⟨h1.trans h2, h1n.trans h2n⟩⟩

/-- Ordering by key with tied keys in DESCENDING index order: it sorts the
keys just as well as `pairLe`, but resolves ties the opposite way. -/
def pairLeRev (u v : ℚ × ℕ) : Prop :=
  u.1 < v.1 ∨ (u.1 = v.1 ∧ v.2 ≤ u.2)

instance : DecidableRel pairLeRev := fun u v => by
  unfold pairLeRev; infer_instance

instance : IsTotal (ℚ × ℕ) pairLeRev := ⟨fun u v => by
  unfold pairLeRev
  rcases lt_trichotomy u.1 v.1 with h | h | h
  · exact Or.inl (Or.inl h)
  · rcases Nat.le_total v.2 u.2 with h2 | h2
    · exact Or.inl (Or.inr ⟨h, h2⟩)
    · exact Or.inr (Or.inr ⟨h.symm, h2⟩)
  · exact Or.inr (Or.inl h)⟩

instance : IsTrans (ℚ × ℕ) pairLeRev := ⟨fun u v w huv hvw => by
  unfold pairLeRev at *
  rcases huv with h1 | ⟨h1, h1n⟩ <;> rcases hvw with h2 | ⟨h2, h2n⟩
  · exact Or.inl (h1.trans h2)
  · exact Or.inl (by rw [← h2]; exact h1)
  · exact Or.inl (by rw [h1]; exact h2)
  · exact Or.inr ⟨h1.trans h2, h2n.trans h1n⟩⟩

/-- numpy's documented contract for `perm = np.argsort(d)`: `perm` is a
permutation of `0, ..., len(d)-1` that puts `d` into non-decreasing order.
The default `kind` is quicksort, which numpy documents as NOT stable, so
nothing beyond this contract constrains the relative order of tied
entries. -/
def isArgsortOf (d : List ℚ) (perm : List ℕ) : Prop :=
  perm.Perm (List.range d.length) ∧
  perm.Pairwise (fun a b => d.getD a 0 ≤ d.getD b 0)

/-- The argsort placing tied keys in ascending position order (the
behaviour of a stable sort). -/
def argsortStable (d : List ℚ) : List ℕ :=
  (List.insertionSort pairLe (List.zip d (List.range d.length))).map Prod.snd

/-- An argsort placing tied keys in descending position order; it
satisfies numpy's argsort contract just as well as the stable one. -/
def argsortRev (d : List ℚ) : List ℕ :=
  (List.insertionSort pairLeRev
    (List.zip d (List.range d.length))).map Prod.snd

/-- Pad a row of node indices with the sentinel `-1` up to length `nvec`
(the rows of `vec` start as `np.zeros([m, nvec]) - 1`). -/
def padTo (nvec : ℕ) (l : List ℤ) : List ℤ :=
  l ++ List.replicate (nvec - l.length) (-1)

/-- Row `i` of `find_neighbors` mode 1 (brute force, lines 161-172):
collect every other node within the cutoff with its distance, sort the
`(d, j)` pairs, keep the closest `nvec`. -/
def bruteRow (p : List Node) (distSq : ℚ) (nvec i : ℕ) : List ℤ :=
  let m := p.length
  let temp := ((List.range m).filter
    (fun j => decide (j ≠ i) && decide (dSq p i j < distSq))).map
      (fun j => (dSq p i j, j))
  padTo nvec ((((List.insertionSort pairLe temp).take nvec).map Prod.snd).map
    (fun n : ℕ => (n : ℤ)))

/-- Row `i` of `find_neighbors` mode 2 (vectorized, lines 176-188):
`np.where` lists the qualifying nodes in ascending index order,
`np.argsort` reorders their distances, and the closest `nvec` remain.
`argsort` is an abstract parameter modelling `np.argsort`, constrained
only by `isArgsortOf` where a claim needs it, because numpy's default
quicksort is not stable and leaves the relative order of equidistant
neighbors undetermined.  The keys handed to it are the squared distances;
the program sorts their square roots, and squaring is strictly monotone on
nonnegative reals, so both key lists have the same sorted orders and the
same ties. -/
def vectRow (argsort : List ℚ → List ℕ) (p : List Node) (distSq : ℚ)
    (nvec i : ℕ) : List ℤ :=
  let m := p.length
  let neighbors := (List.range m).filter
    (fun j => decide (dSq p i j < distSq) && decide (j ≠ i))
  padTo nvec ((((argsort (neighbors.map (fun j => dSq p i j))).map
    (fun k => neighbors.getD k 0)).take nvec).map (fun n : ℕ => (n : ℤ)))

/-- Row `i` of `find_neighbors` mode 3 (KDTree, lines 192-197): query the
`nvec + 1` nearest nodes (self included), drop those at or beyond the
cutoff (`distances < dist`), drop self, keep the first `nvec`. -/
def treeRow (p : List Node) (distSq : ℚ) (nvec i : ℕ) : List ℤ :=
  let m := p.length
  let cand := (List.insertionSort pairLe
    ((List.range m).map (fun j => (dSq p i j, j)))).take (nvec + 1)
  let valid := (cand.filter (fun q => decide (q.1 < distSq))).map Prod.snd
  padTo nvec (((valid.filter (fun j => decide (j ≠ i))).take nvec).map
    (fun n : ℕ => (n : ℤ)))

/-- `find_neighbors(p, dist, nvec, mode)` (lines 138-199); an unknown mode
leaves the initialized all-sentinel array.  `distSq` is the square of the
`dist` argument; `argsort` models `np.argsort` and is consulted only by
mode 2. -/
def find_neighbors (argsort : List ℚ → List ℕ) (p : List Node)
    (distSq : ℚ) (nvec mode : ℕ) : List (List ℤ) :=
  (List.range p.length).map (fun i =>
    if mode = 1 then bruteRow p distSq nvec i
    else if mode = 2 then vectRow argsort p distSq nvec i
    else if mode = 3 then treeRow p distSq nvec i
    else List.replicate nvec (-1))

/-- Row `i` of `find_neighbors_adv` (helper `find_neighbors_brute_force`,
lines 227-245): keep nodes strictly upstream of the direction `(a, b)`
(`sign((xt,yt)·(a,b)) == -1`, i.e. negative dot product) within the cutoff,
sorted by distance. -/
def advRow (p : List Node) (distSq a b : ℚ) (nvec i : ℕ) : List ℤ :=
  let m := p.length
  let temp := ((List.range m).filter (fun j => decide (j ≠ i) &&
    decide ((xOf p j - xOf p i) * a + (yOf p j - yOf p i) * b < 0) &&
    decide (dSq p i j < distSq))).map (fun j => (dSq p i j, j))
  padTo nvec ((((List.insertionSort pairLe temp).take nvec).map Prod.snd).map
    (fun n : ℕ => (n : ℤ)))

/-- `find_neighbors_adv(p, dist, a, b, nvec)` (lines 201-225); the workers
of the pool each produce one row independently, so the result is the
ordered list of the per-node rows. -/
def find_neighbors_adv (p : List Node) (distSq a b : ℚ) (nvec : ℕ) :
    List (List ℤ) :=
  (List.range p.length).map (advRow p distSq a b nvec)

/-- `Neighbors.Cloud(p, nvec)` (lines 53-72): cutoff from the vectorized
`find_distances`, then the KDTree strategy.  Mode 3 never consults the
`argsort` model, so the instantiation passed here is irrelevant. -/
def Cloud (p : List Node) (nvec : ℕ) : List (List ℤ) :=
  find_neighbors argsortStable p (find_distancesSq p) nvec 3

/-- `Neighbors.CloudAdv(p, a, b, nvec)` (lines 74-93). -/
def CloudAdv (p : List Node) (a b : ℚ) (nvec : ℕ) : List (List ℤ) :=
  find_neighbors_adv p (find_distancesSq p) a b nvec

/-- `Neighbors.Triangulation(p, tt, nvec)` (lines 24-51): row `i` holds the
sorted distinct entries of the triangles containing `i`, except `i` itself
(`np.setdiff1d`), truncated to `min(nvec, #(entries ≠ -1))`. -/
def Triangulation (p : List Node) (tt : List (List ℤ)) (nvec : ℕ) :
    List (List ℤ) :=
  (List.range p.length).map (fun i =>
    let vec2 := List.insertionSort (fun u v => u ≤ v)
      (((tt.filter (fun tr => tr.contains (i : ℤ))).flatten.filter
        (fun z => decide (z ≠ (i : ℤ)))).dedup)
    let nvec2 := vec2.countP (fun z => decide (z ≠ -1))
    padTo nvec (vec2.take (min nvec nvec2)))

end Neighbors

/-- An `m × m` array given entrywise. -/
def buildM (m : ℕ) (f : ℕ → ℕ → ℚ) : Matq :=
  (List.range m).map (fun i => (List.range m).map (fun j => f i j))

/-- `np.identity(m)`. -/
def identityM (m : ℕ) : Matq :=
  buildM m (fun i j => if i = j then (1 : ℚ) else 0)

/-- Entrywise sum of two `m × m` arrays. -/
def matAdd (m : ℕ) (A B : Matq) : Matq :=
  buildM m (fun i j => mget A i j + mget B i j)

/-- Entrywise difference of two `m × m` arrays. -/
def matSub (m : ℕ) (A B : Matq) : Matq :=
  buildM m (fun i j => mget A i j - mget B i j)

/-- Scalar multiple of an `m × m` array. -/
def smulM (m : ℕ) (c : ℚ) (A : Matq) : Matq :=
  buildM m (fun i j => c * mget A i j)

/-- Product of two `m × m` arrays. -/
def matMul (m : ℕ) (A B : Matq) : Matq :=
  buildM m (fun i j => ((List.range m).map (fun k => mget A i k * mget B k j)).sum)

/-- Row `i` of `A` applied to the vector `v`. -/
def rowDot (m : ℕ) (A : Matq) (i : ℕ) (v : ℕ → ℚ) : ℚ :=
  ((List.range m).map (fun j => mget A i j * v j)).sum

/-- Boundary mask `(p[:, 2] == 1) | (p[:, 2] == 2)` (an `m`-long mask:
false beyond the array). -/
def bounB (p : List Node) (i : ℕ) : Bool :=
  decide (i < p.length) &&
    (decide (tagOf p i = 1) || decide (tagOf p i = 2))

/-- Interior mask `p[:, 2] == 0` (an `m`-long mask: false beyond the
array). -/
def inneB (p : List Node) (i : ℕ) : Bool :=
  decide (i < p.length) && decide (tagOf p i = 0)

/-- The update matrix of the theta scheme of `TimeDerivative1` line 161:
`np.linalg.pinv(np.identity(m) - (1-lam)*K) @ (np.identity(m) + lam*K)`. -/
def updateTheta (pinv : Matq → Matq) (m : ℕ) (K : Matq) (lam : ℚ) : Matq :=
  matMul m (pinv (matSub m (identityM m) (smulM m (1 - lam) K)))
    (matAdd m (identityM m) (smulM m lam K))

/-- `mGFD.Stationary(p, phi, f, operator, triangulation, tt, Adv)`
(mGFD.py lines 25-88).  The `m × 1` column `operator` is flattened to a
plain list; `a` and `b` are its first two entries, read only when
`Adv == True` (lines 60-62).  The solution fields are functions of the node
index. -/
def Stationary (pinv : Matq → Matq) (p : List Node) (phi f : ℚ → ℚ → ℚ)
    (operator : List ℚ) (triangulation : Bool) (tt : List (List ℤ))
    (Adv : Bool) : Except Err ((ℕ → ℚ) × (ℕ → ℚ) × List (List ℤ)) :=
  let m := p.length
  let nvec := 8
  let a := operator.getD 0 0
  let b := operator.getD 1 0
  let u1 : ℕ → ℚ := fun i => if bounB p i then phi (xOf p i) (yOf p i) else 0
  let vec := if triangulation then Neighbors.Triangulation p tt nvec
    else if Adv then Neighbors.CloudAdv p a b nvec
    else Neighbors.Cloud p nvec
  let L := operator.dropLast
  do
    let K ← Gammas.Cloud pinv p vec L
    let R := Gammas.RHS p phi f
    let un : ℕ → ℚ := fun i => rowDot m (pinv K) i (fun k => R.getD k 0)
    let u_ap : ℕ → ℚ := fun i => if inneB p i then un i else u1 i
    let u_ex : ℕ → ℚ := fun i => phi (xOf p i) (yOf p i)
    pure (u_ap, u_ex, vec)

/-- `mGFD.TimeDerivative1(p, f, t, coef, operator, triangulation, tt,
implicit, lam, Adv)` (mGFD.py lines 91-171).  `T = np.linspace(0, 1, t)`
and `dt = T[1] - T[0]` (an `IndexError` unless `t ≥ 2`); with `Adv == True`
line 135 reads the local name `L` before its only assignment on line 154,
so Python raises `UnboundLocalError` there (which also makes the
`Neighbors.CloudAdv(p, nvec)` call on line 149 unreachable).  The solution
fields are functions of node index and time level. -/
def TimeDerivative1 (pinv : Matq → Matq) (p : List Node)
    (f : ℚ → ℚ → ℚ → ℚ → ℚ) (t : ℕ) (coef : ℚ) (operator : List ℚ)
    (triangulation : Bool) (tt : List (List ℤ)) (implicit : Bool) (lam : ℚ)
    (Adv : Bool) : Except Err ((ℕ → ℕ → ℚ) × (ℕ → ℕ → ℚ) × List (List ℤ)) :=
  let m := p.length
  if t ≤ 1 then .error .indexOutOfRange
  else
    let T : ℕ → ℚ := fun k => (k : ℚ) / ((t : ℚ) - 1)
    let dt : ℚ := 1 / ((t : ℚ) - 1)
    if Adv then .error .unboundLocal
    else
      let u0 : ℕ → ℕ → ℚ := fun _ _ => 0
      let u1 := (List.range t).foldl (fun u k => fun i k2 =>
        if k2 = k ∧ bounB p i then f (xOf p i) (yOf p i) (T k) coef
        else u i k2) u0
      let u2 : ℕ → ℕ → ℚ := fun i k2 =>
        if k2 = 0 ∧ i < m then f (xOf p i) (yOf p i) (T 0) coef else u1 i k2
      let vec := if triangulation then Neighbors.Triangulation p tt 8
        else Neighbors.Cloud p 8
      let L := operator.dropLast.map (fun c => dt * c)
      do
        let K ← Gammas.Cloud pinv p vec L
        let K2 := if implicit then updateTheta pinv m K lam
          else matAdd m (identityM m) K
        let uF := (List.range' 1 (t - 1)).foldl (fun u k => fun i k2 =>
          if k2 = k ∧ inneB p i then rowDot m K2 i (fun j => u j (k - 1))
          else u i k2) u2
        let u_ex : ℕ → ℕ → ℚ := fun i k =>
          if i < m ∧ k < t then f (xOf p i) (yOf p i) (T k) coef else 0
        pure (uF, u_ex, vec)

/-- `mGFD.TimeDerivative2(p, f, g, t, coef, operator, triangulation, tt,
implicit, lam, Adv)` (mGFD.py lines 174-265).  Same `t ≥ 2` and
`Adv == True` failure modes as `TimeDerivative1` (line 219 reads the
unassigned local `L`); the three-level recurrence uses `K1..K4` of lines
241-250. -/
def TimeDerivative2 (pinv : Matq → Matq) (p : List Node)
    (f g : ℚ → ℚ → ℚ → ℚ → ℚ) (t : ℕ) (coef : ℚ) (operator : List ℚ)
    (triangulation : Bool) (tt : List (List ℤ)) (implicit : Bool) (lam : ℚ)
    (Adv : Bool) : Except Err ((ℕ → ℕ → ℚ) × (ℕ → ℕ → ℚ) × List (List ℤ)) :=
  let m := p.length
  if t ≤ 1 then .error .indexOutOfRange
  else
    let T : ℕ → ℚ := fun k => (k : ℚ) / ((t : ℚ) - 1)
    let dt : ℚ := 1 / ((t : ℚ) - 1)
    if Adv then .error .unboundLocal
    else
      let u0 : ℕ → ℕ → ℚ := fun _ _ => 0
      let u1 := (List.range t).foldl (fun u k => fun i k2 =>
        if k2 = k ∧ bounB p i then f (xOf p i) (yOf p i) (T k) coef
        else u i k2) u0
      let u2 : ℕ → ℕ → ℚ := fun i k2 =>
        if k2 = 0 ∧ i < m then f (xOf p i) (yOf p i) (T 0) coef else u1 i k2
      let vec := if triangulation then Neighbors.Triangulation p tt 8
        else Neighbors.Cloud p 8
      let L := operator.dropLast.map (fun c => dt * dt * c)
      do
        let K ← Gammas.Cloud pinv p vec L
        let K1 := if implicit
          then pinv (matSub m (identityM m) (smulM m ((1 - lam) * (1 / 2)) K))
          else identityM m
        let K2 := if implicit
          then matAdd m (identityM m) (smulM m (lam * (1 / 2)) K)
          else matAdd m (identityM m) (smulM m (1 / 2) K)
        let K3 := if implicit
          then pinv (matSub m (identityM m) (smulM m (1 - lam) K))
          else identityM m
        let K4 := if implicit
          then matAdd m (smulM m 2 (identityM m)) (smulM m lam K)
          else matAdd m (smulM m 2 (identityM m)) K
        let uF := (List.range' 1 (t - 1)).foldl (fun u k => fun i k2 =>
          if k2 = k ∧ inneB p i then
            (if k = 1 then
              rowDot m K1 i (fun j => rowDot m K2 j (fun l => u l 0) +
                dt * g (xOf p j) (yOf p j) (T 1) coef)
            else
              rowDot m K3 i (fun j => rowDot m K4 j (fun l => u l (k - 1)) -
                u j (k - 2)))
          else u i k2) u2
        let u_ex : ℕ → ℕ → ℚ := fun i k =>
          if i < m ∧ k < t then f (xOf p i) (yOf p i) (T k) coef else 0
        pure (uF, u_ex, vec)

/-- The default of the `operator` argument of all three solvers:
`np.vstack([[0], [0], [2], [0], [2]])` — five entries, although the
documented operator layout `[D, E, A, B, C, F]` has six. -/
def defaultOperator : List ℚ := [0, 0, 2, 0, 2]

/-! ### Generic helper lemmas -/

theorem sum_map_range {f : ℕ → ℚ} {n : ℕ} :
    ((List.range n).map f).sum = ∑ k in Finset.range n, f k := by
  induction n with
  | zero => simp
  | succ n ih => rw [List.range_succ, Finset.sum_range_succ]; simp [ih]

theorem mapExcept_ok {α β : Type} {f : α → Except Err β} {l : List α}
    (h : ∀ a ∈ l, ∃ b, f a = .ok b) :
    ∃ bl, mapExcept f l = .ok bl := by
  induction l with
  | nil => exact ⟨[], rfl⟩
  | cons a l ih =>
    obtain ⟨b, hb⟩ := h a (List.mem_cons_self a l)
    obtain ⟨bl, hbl⟩ := ih (fun x hx => h x (List.mem_cons_of_mem a hx))
    exact ⟨b :: bl, by rw [mapExcept_cons, hb, ok_bind, hbl, ok_bind]; rfl⟩

theorem foldExcept_ok {σ α : Type} {f : σ → α → Except Err σ} {l : List α}
    (h : ∀ s, ∀ a ∈ l, ∃ t, f s a = .ok t) (init : σ) :
    ∃ s, foldExcept f init l = .ok s := by
  induction l generalizing init with
  | nil => exact ⟨init, rfl⟩
  | cons a l ih =>
    obtain ⟨t, ht⟩ := h init a (List.mem_cons_self a l)
    obtain ⟨s, hs⟩ := ih (fun s a ha => h s a (List.mem_cons_of_mem _ ha)) t
    exact ⟨s, by rw [foldExcept_cons, ht, ok_bind, hs]⟩

/-- A state invariant is preserved along a successful `foldExcept`. -/
theorem foldExcept_invariant {σ α : Type} {f : σ → α → Except Err σ}
    {l : List α} {P : σ → Prop}
    (h : ∀ s, ∀ a ∈ l, ∀ t, f s a = .ok t → P s → P t) :
    ∀ init fin, foldExcept f init l = .ok fin → P init → P fin := by
  induction l with
  | nil => intro init fin hf hP; cases hf; exact hP
  | cons a l ih =>
    intro init fin hf hP
    rw [foldExcept_cons] at hf
    cases hs : f init a with
    | error e => rw [hs] at hf; exact absurd hf (by simp [error_bind])
    | ok t =>
      rw [hs, ok_bind] at hf
      exact ih (fun s a ha => h s a (List.mem_cons_of_mem _ ha)) t fin hf
        (h init a (List.mem_cons_self a l) t hs hP)

theorem readIdx_ok_nonneg {m : ℕ} {z : ℤ} (h0 : 0 ≤ z) (h1 : z < (m : ℤ)) :
    readIdx m z = .ok z.toNat := by
  unfold readIdx
  rw [if_pos ⟨h0, h1⟩]

theorem readIdx_neg_one {m : ℕ} (h : 1 ≤ m) :
    readIdx m (-1) = .ok (m - 1) := by
  unfold readIdx
  rw [if_neg (by omega), if_pos (by constructor <;> omega)]
  congr 1
  omega

/-- `readIdx` succeeds exactly on indices in `[-m, m)`, and the resolved
index is below `m`. -/
theorem readIdx_ok {m : ℕ} {z : ℤ} (h0 : -(m : ℤ) ≤ z) (h1 : z < (m : ℤ)) :
    ∃ c, readIdx m z = .ok c ∧ c < m := by
  unfold readIdx
  by_cases hz : 0 ≤ z ∧ z < (m : ℤ)
  · exact ⟨z.toNat, by rw [if_pos hz], by omega⟩
  · refine ⟨((m : ℤ) + z).toNat, ?_, by omega⟩
    rw [if_neg hz, if_pos ⟨h0, by omega⟩]

theorem mget_Kset_same {A : Matq} {i j : ℕ} {v : ℚ}
    (hi : i < A.length) (hj : j < (A.getD i []).length) :
    mget (Kset A i j v) i j = v := by
  simp only [mget, Kset, List.getD_eq_getElem?_getD] at *
  rw [List.getElem?_set_self hi]
  simp only [Option.getD_some]
  rw [List.getElem?_set_self (by simpa using hj)]
  rfl

theorem mget_Kset_other {A : Matq} {i j i2 j2 : ℕ} {v : ℚ}
    (h : i2 ≠ i ∨ j2 ≠ j) :
    mget (Kset A i j v) i2 j2 = mget A i2 j2 := by
  simp only [mget, Kset, List.getD_eq_getElem?_getD]
  rcases h with h | h
  · rw [List.getElem?_set_ne (fun hc => h hc.symm)]
  · by_cases hi : i2 = i
    · subst hi
      rw [List.getElem?_set]
      by_cases hlen : i2 < A.length
      · rw [if_pos rfl, if_pos hlen]
        simp only [Option.getD_some]
        rw [List.getElem?_set_ne (fun hc => h hc.symm)]
      · rw [if_pos rfl, if_neg hlen]
        have hA : A[i2]? = none := List.getElem?_eq_none (by omega)
        rw [hA]
    · rw [List.getElem?_set_ne (fun hc => hi hc.symm)]

theorem Kset_length {A : Matq} {i j : ℕ} {v : ℚ} :
    (Kset A i j v).length = A.length := by
  simp [Kset]

theorem Kset_row_length {A : Matq} {i j : ℕ} {v : ℚ} (i2 : ℕ) :
    ((Kset A i j v).getD i2 []).length = ((A.getD i2 []).length) := by
  simp only [Kset, List.getD_eq_getElem?_getD]
  by_cases hi : i2 = i
  · subst hi
    rw [List.getElem?_set]
    by_cases hlen : i2 < A.length
    · rw [if_pos rfl, if_pos hlen]
      simp
    · rw [if_pos rfl, if_neg hlen]
      have hA : A[i2]? = none := List.getElem?_eq_none (by omega)
      rw [hA]
  · rw [List.getElem?_set_ne (fun hc => hi hc.symm)]

theorem mget_zerosM {m i j : ℕ} : mget (zerosM m) i j = 0 := by
  simp only [mget, zerosM, List.getD_eq_getElem?_getD, List.getElem?_replicate]
  by_cases hi : i < m
  · rw [if_pos hi]
    simp only [Option.getD_some, List.getElem?_replicate]
    by_cases hj : j < m
    · rw [if_pos hj]; rfl
    · rw [if_neg hj]; rfl
  · rw [if_neg hi]; rfl

theorem zerosM_length {m : ℕ} : (zerosM m).length = m := by simp [zerosM]

theorem zerosM_row_length {m i : ℕ} (hi : i < m) :
    ((zerosM m).getD i []).length = m := by
  simp only [zerosM, List.getD_eq_getElem?_getD, List.getElem?_replicate,
    if_pos hi]
  simp

theorem mget_buildM {m : ℕ} {f : ℕ → ℕ → ℚ} {i j : ℕ} (hi : i < m)
    (hj : j < m) : mget (buildM m f) i j = f i j := by
  simp [mget, buildM, List.getD_eq_getElem?_getD, List.getElem?_map,
    List.getElem?_range, hi, hj]

theorem buildM_congr {m : ℕ} {f g : ℕ → ℕ → ℚ}
    (h : ∀ i < m, ∀ j < m, f i j = g i j) : buildM m f = buildM m g := by
  unfold buildM
  refine List.map_congr_left (fun i hi => ?_)
  refine List.map_congr_left (fun j hj => ?_)
  exact h i (List.mem_range.mp hi) j (List.mem_range.mp hj)

theorem buildM_mget {m : ℕ} {f : ℕ → ℕ → ℚ} :
    buildM m (fun i j => mget (buildM m f) i j) = buildM m f :=
  buildM_congr (fun _ hi _ hj => mget_buildM hi hj)

theorem sum_delta_right {m j : ℕ} (hj : j < m) (A : ℕ → ℚ) :
    ((List.range m).map (fun k => A k * (if k = j then (1 : ℚ) else 0))).sum
      = A j := by
  rw [sum_map_range, Finset.sum_eq_single j]
  · rw [if_pos rfl, mul_one]
  · intro b _ hb; rw [if_neg hb, mul_zero]
  · intro hb; exact absurd (Finset.mem_range.mpr hj) hb

theorem sum_delta_left {m i : ℕ} (hi : i < m) (B : ℕ → ℚ) :
    ((List.range m).map (fun k => (if i = k then (1 : ℚ) else 0) * B k)).sum
      = B i := by
  rw [sum_map_range, Finset.sum_eq_single i]
  · rw [if_pos rfl, one_mul]
  · intro b _ hb; rw [if_neg (fun hc => hb hc.symm), zero_mul]
  · intro hb; exact absurd (Finset.mem_range.mpr hi) hb

/-! ### Claim theorems -/

/-- Claim C4: calling `TimeDerivative1` or `TimeDerivative2` with
`Adv=True` always raises before producing a result: for `t ≥ 2` the
velocity extraction `a = L[0]` reads the local name `L` before its
assignment (`UnboundLocalError`), and for `t ≤ 1` the earlier
`dt = T[1] - T[0]` already raises `IndexError`; either way no result is
returned, so the misformed `Neighbors.CloudAdv(p, nvec)` call is never
reached and the advection search is reachable only through `Stationary`. -/
theorem C4_adv_always_raises (pinv : Matq → Matq) (p : List Node)
    (f g : ℚ → ℚ → ℚ → ℚ → ℚ) (t : ℕ) (coef : ℚ) (operator : List ℚ)
    (triangulation : Bool) (tt : List (List ℤ)) (implicit : Bool) (lam : ℚ) :
    TimeDerivative1 pinv p f t coef operator triangulation tt implicit
        lam true =
      .error (if t ≤ 1 then .indexOutOfRange else .unboundLocal) ∧
    TimeDerivative2 pinv p f g t coef operator triangulation tt implicit
        lam true =
      .error (if t ≤ 1 then .indexOutOfRange else .unboundLocal) := by
  constructor
  · unfold TimeDerivative1
    by_cases ht : t ≤ 1 <;> simp [ht]
  · unfold TimeDerivative2
    by_cases ht : t ≤ 1 <;> simp [ht]

theorem map_getD_range (l : List ℕ) :
    (List.range l.length).map (fun k => l.getD k 0) = l := by
  apply List.ext_getElem
  · simp
  · intro n h1 h2
    simp [List.getD_eq_getElem?_getD, List.getElem?_eq_getElem h2]

theorem getD_map_key (key : ℕ → ℚ) (l : List ℕ) {k : ℕ}
    (hk : k < l.length) :
    (l.map key).getD k 0 = key (l.getD k 0) := by
  rw [List.getD_eq_getElem?_getD, List.getD_eq_getElem?_getD,
    List.getElem?_eq_getElem (by simpa using hk),
    List.getElem?_eq_getElem hk]
  simp

theorem map_snd_zip_range (d : List ℚ) :
    (List.zip d (List.range d.length)).map Prod.snd =
      List.range d.length := by
  apply List.ext_getElem
  · simp
  · intro n h1 h2
    simp

theorem mem_zip_range_fst {d : List ℚ} {x : ℚ × ℕ}
    (hx : x ∈ List.zip d (List.range d.length)) : x.1 = d.getD x.2 0 := by
  obtain ⟨n, hn, hx2⟩ := List.mem_iff_getElem.mp hx
  have hn2 : n < d.length := by simpa using hn
  rw [List.getElem_zip] at hx2
  rw [← hx2]
  simp [List.getD_eq_getElem?_getD, List.getElem?_eq_getElem hn2]

/-- Any insertion sort of the `(key, position)` pairs by a relation that
refines the key order yields a valid argsort of `d` in the sense of
numpy's documented contract. -/
theorem argsortBy_valid (r : ℚ × ℕ → ℚ × ℕ → Prop) [DecidableRel r]
    [IsTotal (ℚ × ℕ) r] [IsTrans (ℚ × ℕ) r]
    (hr : ∀ u v, r u v → u.1 ≤ v.1) (d : List ℚ) :
    Neighbors.isArgsortOf d ((List.insertionSort r
      (List.zip d (List.range d.length))).map Prod.snd) := by
  constructor
  · have h := (List.perm_insertionSort r
      (List.zip d (List.range d.length))).map Prod.snd
    rwa [map_snd_zip_range] at h
  · rw [List.pairwise_map]
    have hs : (List.insertionSort r
        (List.zip d (List.range d.length))).Pairwise r :=
      List.sorted_insertionSort r _
    refine List.Pairwise.imp_of_mem ?_ hs
    intro u v hu hv huv
    have hu2 : u.1 = d.getD u.2 0 := mem_zip_range_fst
      ((List.perm_insertionSort r _).mem_iff.mp hu)
    have hv2 : v.1 = d.getD v.2 0 := mem_zip_range_fst
      ((List.perm_insertionSort r _).mem_iff.mp hv)
    rw [← hu2, ← hv2]
    exact hr u v huv

theorem argsortStable_valid (d : List ℚ) :
    Neighbors.isArgsortOf d (Neighbors.argsortStable d) := by
  unfold Neighbors.argsortStable
  refine argsortBy_valid Neighbors.pairLe (fun u v h => ?_) d
  unfold Neighbors.pairLe at h
  rcases h with h | ⟨h, _⟩
  · exact le_of_lt h
  · exact le_of_eq h

theorem argsortRev_valid (d : List ℚ) :
    Neighbors.isArgsortOf d (Neighbors.argsortRev d) := by
  unfold Neighbors.argsortRev
  refine argsortBy_valid Neighbors.pairLeRev (fun u v h => ?_) d
  unfold Neighbors.pairLeRev at h
  rcases h with h | ⟨h, _⟩
  · exact le_of_lt h
  · exact le_of_eq h

/-- Two key-sorted lists that are permutations of each other coincide when
the key is injective on their members. -/
theorem sorted_key_perm_unique {key : ℕ → ℚ} :
    ∀ {l1 l2 : List ℕ}, l1.Perm l2 →
      l1.Pairwise (fun a b => key a ≤ key b) →
      l2.Pairwise (fun a b => key a ≤ key b) →
      (∀ a ∈ l1, ∀ b ∈ l1, key a = key b → a = b) → l1 = l2 := by
  intro l1
  induction l1 with
  | nil =>
    intro l2 hp _ _ _
    exact (hp.symm.eq_nil).symm
  | cons a t1 ih =>
    intro l2 hp hs1 hs2 hinj
    cases l2 with
    | nil =>
      have := hp.eq_nil
      simp at this
    | cons b t2 =>
      have hs1p := List.pairwise_cons.mp hs1
      have hs2p := List.pairwise_cons.mp hs2
      have hab : a = b := by
        by_cases h : a = b
        · exact h
        · have ha2 : a ∈ b :: t2 := hp.mem_iff.mp (List.mem_cons_self a t1)
          have hb1 : b ∈ a :: t1 := hp.mem_iff.mpr (List.mem_cons_self b t2)
          have ha2m : a ∈ t2 := by
            rcases List.mem_cons.mp ha2 with h2 | h2
            · exact absurd h2 h
            · exact h2
          have hb1m : b ∈ t1 := by
            rcases List.mem_cons.mp hb1 with h2 | h2
            · exact absurd h2.symm h
            · exact h2
          have hle1 : key a ≤ key b := hs1p.1 b hb1m
          have hle2 : key b ≤ key a := hs2p.1 a ha2m
          exact hinj a (List.mem_cons_self a t1) b hb1
            (le_antisymm hle1 hle2)
      subst hab
      have hp2 := hp.cons_inv
      have ht := ih hp2 hs1p.2 hs2p.2
        (fun x hx y hy => hinj x (List.mem_cons_of_mem a hx) y
          (List.mem_cons_of_mem a hy))
      rw [ht]

/-- The brute-force row and the vectorized row agree for every
contract-satisfying argsort, provided no two of node `i`'s candidate
neighbors are exactly equidistant from it. -/
theorem bruteRow_eq_vectRow (argsort : List ℚ → List ℕ) (p : List Node)
    (distSq : ℚ) (nvec i : ℕ)
    (hAS : ∀ d, Neighbors.isArgsortOf d (argsort d))
    (hinj : ∀ a b : ℕ, a < p.length → b < p.length → a ≠ i → b ≠ i →
      Neighbors.dSq p i a < distSq → Neighbors.dSq p i b < distSq →
      Neighbors.dSq p i a = Neighbors.dSq p i b → a = b) :
    Neighbors.bruteRow p distSq nvec i =
      Neighbors.vectRow argsort p distSq nvec i := by
  unfold Neighbors.bruteRow Neighbors.vectRow
  dsimp only
  rw [List.filter_congr (fun x _ =>
    Bool.and_comm (decide (x ≠ i)) (decide (Neighbors.dSq p i x < distSq)))]
  rw [List.map_take]
  set N := (List.range p.length).filter
    (fun j => decide (Neighbors.dSq p i j < distSq) && decide (j ≠ i))
    with hNdef
  have hmem : ∀ a ∈ N, a < p.length ∧ Neighbors.dSq p i a < distSq ∧
      a ≠ i := by
    intro a ha
    rw [hNdef] at ha
    have h2 := List.mem_filter.mp ha
    have h3 := List.mem_range.mp h2.1
    have h4 := h2.2
    simp only [Bool.and_eq_true, decide_eq_true_eq] at h4
    exact ⟨h3, h4.1, h4.2⟩
  have hS1perm : ((List.insertionSort Neighbors.pairLe
      (N.map (fun j => (Neighbors.dSq p i j, j)))).map Prod.snd).Perm N := by
    have h := (List.perm_insertionSort Neighbors.pairLe
      (N.map (fun j => (Neighbors.dSq p i j, j)))).map Prod.snd
    rw [List.map_map] at h
    have hcomp : List.map (Prod.snd ∘ fun j => (Neighbors.dSq p i j, j)) N =
        List.map id N := List.map_congr_left (fun a _ => rfl)
    rw [hcomp, List.map_id] at h
    exact h
  have hS1sorted : ((List.insertionSort Neighbors.pairLe
      (N.map (fun j => (Neighbors.dSq p i j, j)))).map Prod.snd).Pairwise
      (fun a b => Neighbors.dSq p i a ≤ Neighbors.dSq p i b) := by
    rw [List.pairwise_map]
    have hs : (List.insertionSort Neighbors.pairLe
        (N.map (fun j => (Neighbors.dSq p i j, j)))).Pairwise
        Neighbors.pairLe :=
      List.sorted_insertionSort Neighbors.pairLe _
    refine List.Pairwise.imp_of_mem ?_ hs
    intro u v hu hv huv
    have hu2 : u.1 = Neighbors.dSq p i u.2 := by
      have hm := (List.perm_insertionSort Neighbors.pairLe _).mem_iff.mp hu
      obtain ⟨a, _, rfl⟩ := List.mem_map.mp hm
      rfl
    have hv2 : v.1 = Neighbors.dSq p i v.2 := by
      have hm := (List.perm_insertionSort Neighbors.pairLe _).mem_iff.mp hv
      obtain ⟨a, _, rfl⟩ := List.mem_map.mp hm
      rfl
    unfold Neighbors.pairLe at huv
    rcases huv with h | ⟨h, _⟩
    · rw [← hu2, ← hv2]
      exact le_of_lt h
    · rw [← hu2, ← hv2]
      exact le_of_eq h
  have hlen : (N.map (fun j => Neighbors.dSq p i j)).length = N.length := by
    simp
  have hS2perm : ((argsort (N.map (fun j => Neighbors.dSq p i j))).map
      (fun k => N.getD k 0)).Perm N := by
    have h := ((hAS (N.map (fun j => Neighbors.dSq p i j))).1).map
      (fun k => N.getD k 0)
    rw [hlen] at h
    rwa [map_getD_range N] at h
  have hS2sorted : ((argsort (N.map (fun j => Neighbors.dSq p i j))).map
      (fun k => N.getD k 0)).Pairwise
      (fun a b => Neighbors.dSq p i a ≤ Neighbors.dSq p i b) := by
    rw [List.pairwise_map]
    refine List.Pairwise.imp_of_mem ?_
      (hAS (N.map (fun j => Neighbors.dSq p i j))).2
    intro a b ha hb hab
    have ha2 : a < N.length := by
      have := List.mem_range.mp
        (((hAS (N.map (fun j => Neighbors.dSq p i j))).1).mem_iff.mp ha)
      rw [hlen] at this
      exact this
    have hb2 : b < N.length := by
      have := List.mem_range.mp
        (((hAS (N.map (fun j => Neighbors.dSq p i j))).1).mem_iff.mp hb)
      rw [hlen] at this
      exact this
    rw [getD_map_key (fun j => Neighbors.dSq p i j) N ha2,
      getD_map_key (fun j => Neighbors.dSq p i j) N hb2] at hab
    exact hab
  have hinjN : ∀ a ∈ ((List.insertionSort Neighbors.pairLe
      (N.map (fun j => (Neighbors.dSq p i j, j)))).map Prod.snd),
      ∀ b ∈ ((List.insertionSort Neighbors.pairLe
      (N.map (fun j => (Neighbors.dSq p i j, j)))).map Prod.snd),
      Neighbors.dSq p i a = Neighbors.dSq p i b → a = b := by
    intro a ha b hb heq
    have haN := hmem a (hS1perm.subset ha)
    have hbN := hmem b (hS1perm.subset hb)
    exact hinj a b haN.1 hbN.1 haN.2.2 hbN.2.2 haN.2.1 hbN.2.1 heq
  have hmain := sorted_key_perm_unique (hS1perm.trans hS2perm.symm)
    hS1sorted hS2sorted hinjN
  rw [hmain]

/-- Claim C6 (counterexample): `np.argsort`'s default quicksort is
documented as not stable, so its output on tied keys is constrained only
by numpy's contract.  On the cloud `p = [(0,0,0), (1,0,0), (-1,0,0)]`
nodes 1 and 2 are exactly equidistant from node 0; under the
contract-satisfying argsort that puts tied keys in descending position
order, mode 2 returns row 0 as `[2, 1]` while mode 1's `(d, j)` tuple
sort returns `[1, 2]`: the unconditional entry-for-entry equality of the
two strategies fails. -/
theorem C6_argsort_tie_order_differs : ∃ argsort : List ℚ → List ℕ,
    (∀ d, Neighbors.isArgsortOf d (argsort d)) ∧
    Neighbors.find_neighbors argsort
        [((0 : ℚ), (0 : ℚ), (0 : ℚ)), (1, 0, 0), (-1, 0, 0)] 2 2 1 ≠
      Neighbors.find_neighbors argsort
        [((0 : ℚ), (0 : ℚ), (0 : ℚ)), (1, 0, 0), (-1, 0, 0)] 2 2 2 := by
  refine ⟨Neighbors.argsortRev, fun d => argsortRev_valid d, ?_⟩
  have hrow1 : (Neighbors.find_neighbors Neighbors.argsortRev
      [((0 : ℚ), (0 : ℚ), (0 : ℚ)), (1, 0, 0), (-1, 0, 0)] 2 2 1).getD 0 [] =
      Neighbors.bruteRow
        [((0 : ℚ), (0 : ℚ), (0 : ℚ)), (1, 0, 0), (-1, 0, 0)] 2 2 0 := by
    unfold Neighbors.find_neighbors
    rw [List.getD_eq_getElem?_getD, List.getElem?_map,
      List.getElem?_range (by norm_num)]
    norm_num
  have hrow2 : (Neighbors.find_neighbors Neighbors.argsortRev
      [((0 : ℚ), (0 : ℚ), (0 : ℚ)), (1, 0, 0), (-1, 0, 0)] 2 2 2).getD 0 [] =
      Neighbors.vectRow Neighbors.argsortRev
        [((0 : ℚ), (0 : ℚ), (0 : ℚ)), (1, 0, 0), (-1, 0, 0)] 2 2 0 := by
    unfold Neighbors.find_neighbors
    rw [List.getD_eq_getElem?_getD, List.getElem?_map,
      List.getElem?_range (by norm_num)]
    norm_num
  have h1 : (Neighbors.bruteRow
      [((0 : ℚ), (0 : ℚ), (0 : ℚ)), (1, 0, 0), (-1, 0, 0)] 2 2 0).getD 0
        (-1) = 1 := by
    norm_num [Neighbors.bruteRow, Neighbors.pairLe, Neighbors.dSq,
      Neighbors.padTo, List.insertionSort, List.orderedInsert,
      xOf, yOf, List.range_succ]
  have h2 : (Neighbors.vectRow Neighbors.argsortRev
      [((0 : ℚ), (0 : ℚ), (0 : ℚ)), (1, 0, 0), (-1, 0, 0)] 2 2 0).getD 0
        (-1) = 2 := by
    norm_num [Neighbors.vectRow, Neighbors.argsortRev, Neighbors.pairLeRev,
      Neighbors.dSq, Neighbors.padTo, List.insertionSort,
      List.orderedInsert, xOf, yOf, List.range_succ, List.zip,
      List.zipWith, List.getElem_cons_succ, List.getElem_cons_zero]
    decide
  intro heq
  have hx : ((Neighbors.find_neighbors Neighbors.argsortRev
      [((0 : ℚ), (0 : ℚ), (0 : ℚ)), (1, 0, 0), (-1, 0, 0)] 2 2 1).getD 0
        []).getD 0 (-1) = 1 := by
    rw [hrow1]
    exact h1
  rw [heq, hrow2, h2] at hx
  norm_num at hx

/-- Claim C6 (amended): the exhaustive strategy (mode 1) and the
vectorized strategy (mode 2) collect the same qualifying nodes; mode 1
orders them by the `(distance, index)` tuple sort, while mode 2's order
passes through `np.argsort`, whose default quicksort leaves the relative
order of exactly equidistant neighbors unspecified.  For every argsort
satisfying numpy's contract, whenever no two candidate neighbors of a
node are exactly equidistant from it the two strategies return exactly
the same neighbor array, entry for entry including order and sentinel
padding. -/
theorem C6_exhaustive_eq_vectorized_no_ties (argsort : List ℚ → List ℕ)
    (p : List Node) (distSq : ℚ) (nvec : ℕ)
    (hAS : ∀ d, Neighbors.isArgsortOf d (argsort d))
    (hinj : ∀ i < p.length, ∀ a < p.length, ∀ b < p.length,
      a ≠ i → b ≠ i → Neighbors.dSq p i a < distSq →
      Neighbors.dSq p i b < distSq →
      Neighbors.dSq p i a = Neighbors.dSq p i b → a = b) :
    Neighbors.find_neighbors argsort p distSq nvec 1 =
      Neighbors.find_neighbors argsort p distSq nvec 2 := by
  unfold Neighbors.find_neighbors
  refine List.map_congr_left (fun i hi => ?_)
  norm_num
  exact bruteRow_eq_vectRow argsort p distSq nvec i hAS
    (fun a b ha hb hai hbi hda hdb heq =>
      hinj i (List.mem_range.mp hi) a ha b hb hai hbi hda hdb heq)

theorem C6_exhaustive_eq_vectorized_no_ties_witness :
    ((∀ d, Neighbors.isArgsortOf d (Neighbors.argsortStable d)) ∧
      (∀ i < ([((0 : ℚ), (0 : ℚ), (0 : ℚ)), (1, 0, 0)] : List Node).length,
        ∀ a < ([((0 : ℚ), (0 : ℚ), (0 : ℚ)), (1, 0, 0)] : List Node).length,
        ∀ b < ([((0 : ℚ), (0 : ℚ), (0 : ℚ)), (1, 0, 0)] : List Node).length,
        a ≠ i → b ≠ i →
        Neighbors.dSq [((0 : ℚ), (0 : ℚ), (0 : ℚ)), (1, 0, 0)] i a < 2 →
        Neighbors.dSq [((0 : ℚ), (0 : ℚ), (0 : ℚ)), (1, 0, 0)] i b < 2 →
        Neighbors.dSq [((0 : ℚ), (0 : ℚ), (0 : ℚ)), (1, 0, 0)] i a =
          Neighbors.dSq [((0 : ℚ), (0 : ℚ), (0 : ℚ)), (1, 0, 0)] i b →
        a = b)) ∧
    Neighbors.find_neighbors Neighbors.argsortStable
        [((0 : ℚ), (0 : ℚ), (0 : ℚ)), (1, 0, 0)] 2 2 1 =
      Neighbors.find_neighbors Neighbors.argsortStable
        [((0 : ℚ), (0 : ℚ), (0 : ℚ)), (1, 0, 0)] 2 2 2 :=
  ⟨⟨fun d => argsortStable_valid d,
    by
      intro i hi a ha b hb hai hbi h1 h2 h3
      norm_num at hi ha hb
      omega⟩,
    C6_exhaustive_eq_vectorized_no_ties Neighbors.argsortStable
      [((0 : ℚ), (0 : ℚ), (0 : ℚ)), (1, 0, 0)] 2 2
      (fun d => argsortStable_valid d)
      (by
        intro i hi a ha b hb hai hbi h1 h2 h3
        norm_num at hi ha hb
        omega)⟩

/-- Claim C1 (code bug witness run): on the cloud
`p = [(0,0,1), (1,0,1)]` (both nodes boundary-tagged), neighbor table
`[[-1], [-1]]` and operator `L = [0,0,0,0,0]`, the code sets
`K[1,1] = 1` (line 59) and then executes `K[1, vec[1,0]] = 0` (line 61)
with `vec[1,0] = -1`, which numpy wraps to the LAST column — zeroing the
diagonal it had just written.  Thus the boundary row of the last node is
not one-hot: `K[1,1] = 0`, contradicting the claim (and lines 59/61's own
comments).  `pinv` is never consulted on this all-boundary run. -/
theorem C1_last_boundary_row_not_one_hot : ∃ K,
    Gammas.Cloud (fun _ => []) [(0, 0, 1), (1, 0, 1)] [[-1], [-1]]
        [0, 0, 0, 0, 0] = Except.ok K ∧
    tagOf [(0, 0, 1), (1, 0, 1)] 1 = 1 ∧ mget K 1 1 = 0 := by
  refine ⟨[[1, 0], [0, 0]], ?_, by norm_num [tagOf], by norm_num [mget]⟩
  norm_num [Gammas.Cloud, Gammas.cloudStep, Gammas.designM, zerosM, Kset,
    mget, readIdx, liveCount, foldExcept, mapExcept, ok_bind, error_bind,
    xOf, yOf, tagOf, List.range_succ, List.replicate, List.set]

/-- A function agreeing with `np.linalg.pinv` on the two matrices the C2
counterexample run evaluates: the `5 × 1` design matrix
`M = [1,0,1,0,0]ᵀ` has full column rank, so
`pinv M = (MᵀM)⁻¹ Mᵀ = [1/2, 0, 1/2, 0, 0]`; and
`I - K = [[3/2, -1/2], [0, 1]]` is invertible, so its Moore-Penrose
pseudoinverse is its inverse `[[2/3, 1/3], [0, 1]]`. -/
def pinvC2 : Matq → Matq := fun M =>
  if M = [[1], [0], [1], [0], [0]] then [[1 / 2, 0, 1 / 2, 0, 0]]
  else if M = [[3 / 2, -1 / 2], [0, 1]] then [[2 / 3, 1 / 3], [0, 1]]
  else []

/-- Claim C2 counterexample: with `K` assembled by `Gammas.Cloud` on a
two-node cloud (one interior node with one neighbor, first-derivative
operator), the theta update of line 161 at `λ = 0` is
`pinv(I - K) = [[2/3, 1/3], [0, 1]]`, which differs from the explicit
update `I + K = [[1/2, 1/2], [0, 1]]`: the claim's `λ = 0` endpoint is not
the explicit scheme. -/
theorem C2_lambda_zero_is_not_explicit : ∃ K,
    Gammas.Cloud pinvC2 [(0, 0, 0), (1, 0, 1)] [[1], [-1]]
        [1, 0, 0, 0, 0] = Except.ok K ∧
    updateTheta pinvC2 2 K 0 ≠ matAdd 2 (identityM 2) K := by
  refine ⟨[[-1 / 2, 1 / 2], [0, 0]], ?_, ?_⟩
  · norm_num [Gammas.Cloud, Gammas.cloudStep, Gammas.designM, zerosM, Kset,
      mget, readIdx, liveCount, foldExcept, mapExcept, ok_bind, error_bind,
      xOf, yOf, tagOf, pinvC2, List.range_succ, List.replicate, List.set]
  · have hImp : updateTheta pinvC2 2 [[-1 / 2, 1 / 2], [0, 0]] 0 =
        [[2 / 3, 1 / 3], [0, 1]] := by
      norm_num [updateTheta, matMul, matSub, matAdd, smulM, identityM,
        buildM, mget, pinvC2, List.range_succ]
    have hExp : matAdd 2 (identityM 2) [[-1 / 2, 1 / 2], [0, 0]] =
        [[1 / 2, 1 / 2], [0, 1]] := by
      norm_num [matAdd, identityM, buildM, mget, List.range_succ]
    rw [hImp, hExp]
    intro h
    have := congrArg (fun A => mget A 0 0) h
    norm_num [mget] at this

/-- Claim C2 (amended): in `TimeDerivative1` with `implicit=True` the
update matrix is `pinv(I − (1−λ)K)·(I + λK)` (line 161) for every
assembled `K` and every `λ ∈ [0, 1]`; this theta family reduces to the
EXPLICIT scheme `I + K` at `λ = 1` (because `pinv(I) = I`), and to the
fully implicit scheme `pinv(I − K)` at `λ = 0` — the reverse of the
λ-endpoints the spec states. -/
theorem C2_theta_family_endpoints (pinv : Matq → Matq) (m : ℕ) (K : Matq)
    (lam : ℚ) (h0 : 0 ≤ lam) (h1 : lam ≤ 1)
    (hI : pinv (identityM m) = identityM m) :
    updateTheta pinv m K lam =
      matMul m (pinv (matSub m (identityM m) (smulM m (1 - lam) K)))
        (matAdd m (identityM m) (smulM m lam K)) ∧
    updateTheta pinv m K 1 = matAdd m (identityM m) K ∧
    (∀ i < m, ∀ j < m, mget (updateTheta pinv m K 0) i j =
      mget (pinv (matSub m (identityM m) K)) i j) := by
  have hsub0 : matSub m (identityM m) (smulM m 0 K) = identityM m := by
    unfold matSub identityM
    refine buildM_congr (fun i hi j hj => ?_)
    rw [show smulM m 0 K = buildM m (fun i j => 0 * mget K i j) from rfl,
      mget_buildM hi hj, mget_buildM hi hj]
    ring
  have hadd0 : matAdd m (identityM m) (smulM m 0 K) = identityM m := by
    unfold matAdd identityM
    refine buildM_congr (fun i hi j hj => ?_)
    rw [show smulM m 0 K = buildM m (fun i j => 0 * mget K i j) from rfl,
      mget_buildM hi hj, mget_buildM hi hj]
    ring
  have hIget : ∀ i2, i2 < m → ∀ j2, j2 < m →
      mget (identityM m) i2 j2 = (if i2 = j2 then (1 : ℚ) else 0) :=
    fun _ hi2 _ hj2 => mget_buildM hi2 hj2
  have hmulIdLeft : ∀ B : Matq, matMul m (identityM m) B =
      buildM m (fun i j => mget B i j) := by
    intro B
    unfold matMul
    refine buildM_congr (fun i hi j _ => ?_)
    rw [show ((List.range m).map (fun k =>
        mget (identityM m) i k * mget B k j)).sum =
      ((List.range m).map (fun k =>
        (if i = k then (1 : ℚ) else 0) * mget B k j)).sum from by
      rw [sum_map_range, sum_map_range]
      exact Finset.sum_congr rfl (fun k hk => by
        rw [hIget i hi k (Finset.mem_range.mp hk)])]
    exact sum_delta_left hi _
  have hmulIdRight : ∀ A : Matq, matMul m A (identityM m) =
      buildM m (fun i j => mget A i j) := by
    intro A
    unfold matMul
    refine buildM_congr (fun i _ j hj => ?_)
    rw [show ((List.range m).map (fun k =>
        mget A i k * mget (identityM m) k j)).sum =
      ((List.range m).map (fun k =>
        mget A i k * (if k = j then (1 : ℚ) else 0))).sum from by
      rw [sum_map_range, sum_map_range]
      exact Finset.sum_congr rfl (fun k hk => by
        rw [hIget k (Finset.mem_range.mp hk) j hj])]
    exact sum_delta_right hj _
  have haddsmul1 : matAdd m (identityM m) (smulM m 1 K) =
      matAdd m (identityM m) K := by
    unfold matAdd
    refine buildM_congr (fun i hi j hj => ?_)
    rw [show smulM m 1 K = buildM m (fun i j => 1 * mget K i j) from rfl,
      mget_buildM hi hj, one_mul]
  have hsub1 : matSub m (identityM m) (smulM m 1 K) =
      matSub m (identityM m) K := by
    unfold matSub
    refine buildM_congr (fun i hi j hj => ?_)
    rw [show smulM m 1 K = buildM m (fun i j => 1 * mget K i j) from rfl,
      mget_buildM hi hj, one_mul]
  refine ⟨rfl, ?_, ?_⟩
  · unfold updateTheta
    rw [show (1 : ℚ) - 1 = 0 from by norm_num, hsub0, hI, hmulIdLeft,
      haddsmul1, show matAdd m (identityM m) K =
        buildM m (fun i j => mget (identityM m) i j + mget K i j) from rfl]
    exact buildM_mget
  · intro i hi j hj
    unfold updateTheta
    rw [show (1 : ℚ) - 0 = 1 from by norm_num, hsub1, hadd0,
      hmulIdRight, mget_buildM hi hj]

/-- Claim C7: two six-entry operator columns differing only in the last
entry (the zeroth-order coefficient `F`) are indistinguishable to all
three solvers: every use of `operator` is either `operator[:-1]` (lines
76, 154, 238) or the velocity reads `operator[0][0]`, `operator[1][0]`
(lines 61-62), none of which sees the sixth entry, so the assembled `K`
and all returned fields coincide. -/
theorem C7_zeroth_order_coefficient_unused (pinv : Matq → Matq)
    (p : List Node) (phi fs : ℚ → ℚ → ℚ) (f g : ℚ → ℚ → ℚ → ℚ → ℚ)
    (t : ℕ) (coef : ℚ) (op1 op2 : List ℚ) (triangulation : Bool)
    (tt : List (List ℤ)) (implicit : Bool) (lam : ℚ) (Adv : Bool)
    (hl1 : op1.length = 6) (hl2 : op2.length = 6)
    (hdrop : op1.dropLast = op2.dropLast) :
    Stationary pinv p phi fs op1 triangulation tt Adv =
      Stationary pinv p phi fs op2 triangulation tt Adv ∧
    TimeDerivative1 pinv p f t coef op1 triangulation tt implicit lam Adv =
      TimeDerivative1 pinv p f t coef op2 triangulation tt implicit lam Adv ∧
    TimeDerivative2 pinv p f g t coef op1 triangulation tt implicit lam Adv =
      TimeDerivative2 pinv p f g t coef op2 triangulation tt implicit
        lam Adv := by
  have hget : ∀ k, k < 5 → op1.getD k 0 = op2.getD k 0 := by
    intro k hk
    have e : ∀ op : List ℚ, op.length = 6 → op.getD k 0 = op.dropLast.getD k 0 := by
      intro op hop
      have hk2 : k < op.dropLast.length := by
        rw [List.length_dropLast]; omega
      rw [List.getD_eq_getElem?_getD, List.getD_eq_getElem?_getD,
        List.getElem?_eq_getElem (by omega : k < op.length),
        List.getElem?_eq_getElem hk2, List.getElem_dropLast]
    rw [e op1 hl1, e op2 hl2, hdrop]
  refine ⟨?_, ?_, ?_⟩
  · unfold Stationary
    rw [hdrop, hget 0 (by norm_num), hget 1 (by norm_num)]
  · unfold TimeDerivative1
    rw [hdrop]
  · unfold TimeDerivative2
    rw [hdrop]

/-- Closed witness for `C7_zeroth_order_coefficient_unused`: the default
Laplacian column extended with `F = 0` against the same with `F = 7`. -/
theorem C7_zeroth_order_coefficient_unused_witness :
    ([0, 0, 2, 0, 2, 0] : List ℚ).length = 6 ∧
    ([0, 0, 2, 0, 2, 7] : List ℚ).length = 6 ∧
    Stationary (fun M => M) [(0, 0, 0), (1, 0, 1)] (fun _ _ => 0)
        (fun _ _ => 0) [0, 0, 2, 0, 2, 0] false [] false =
      Stationary (fun M => M) [(0, 0, 0), (1, 0, 1)] (fun _ _ => 0)
        (fun _ _ => 0) [0, 0, 2, 0, 2, 7] false [] false :=
  ⟨by norm_num, by norm_num,
    (C7_zeroth_order_coefficient_unused (fun M => M) [(0, 0, 0), (1, 0, 1)]
      (fun _ _ => 0) (fun _ _ => 0) (fun _ _ _ _ => 0) (fun _ _ _ _ => 0)
      2 0 [0, 0, 2, 0, 2, 0] [0, 0, 2, 0, 2, 7] false [] false 0 false
      (by norm_num) (by norm_num) (by norm_num)).1⟩

/-! ### Neighbor-table validity and the behaviour of `Gammas.Cloud` -/

/-- A well-formed `NeighborTable` row over `m` nodes (spec section 3): an
ordered sequence of neighbor ids in `[0, m)` followed by sentinel
padding. -/
def validRow (m : ℕ) (row : List ℤ) : Prop :=
  row = lives row ++ List.replicate (row.length - (lives row).length) (-1) ∧
  ∀ z ∈ lives row, 0 ≤ z ∧ z < (m : ℤ)

instance (m : ℕ) (row : List ℤ) : Decidable (validRow m row) := by
  unfold validRow
  infer_instance

theorem liveCount_eq_length_lives (row : List ℤ) :
    liveCount row = (lives row).length :=
  List.countP_eq_length_filter _ _

theorem validRow_nil (m : ℕ) : validRow m [] := by
  constructor
  · rfl
  · intro z hz
    simp [lives] at hz

theorem mem_lives_ne_sentinel {row : List ℤ} {z : ℤ} (h : z ∈ lives row) :
    z ≠ -1 := by
  have := (List.mem_filter.mp h).2
  simpa using this

theorem validRow_mem_cases {m : ℕ} {row : List ℤ} {z : ℤ}
    (h : validRow m row) (hz : z ∈ row) :
    (0 ≤ z ∧ z < (m : ℤ)) ∨ z = -1 := by
  rw [h.1] at hz
  rcases List.mem_append.mp hz with h1 | h1
  · exact Or.inl (h.2 _ h1)
  · exact Or.inr (List.eq_of_mem_replicate h1)

/-- Reads at positions below the live count resolve to the corresponding
entry of the live prefix. -/
theorem validRow_getD_eq_lives {m : ℕ} {row : List ℤ} {j : ℕ}
    (h : validRow m row) (hj : j < (lives row).length) :
    row.getD j (-1) = (lives row).getD j (-1) := by
  conv_lhs => rw [h.1]
  rw [List.getD_eq_getElem?_getD, List.getD_eq_getElem?_getD,
    List.getElem?_append, if_pos hj]

theorem validRow_getD_mem_lives {m : ℕ} {row : List ℤ} {j : ℕ}
    (h : validRow m row) (hj : j < liveCount row) :
    row.getD j (-1) ∈ lives row := by
  rw [liveCount_eq_length_lives] at hj
  rw [validRow_getD_eq_lives h hj]
  rw [List.getD_eq_getElem?_getD, List.getElem?_eq_getElem hj]
  exact List.getElem_mem hj

/-- Under row validity, reads at positions below the live count resolve to
live entries: node ids in `[0, m)`. -/
theorem validRow_getD_live {m : ℕ} {row : List ℤ} {j : ℕ}
    (h : validRow m row) (hj : j < liveCount row) :
    0 ≤ row.getD j (-1) ∧ row.getD j (-1) < (m : ℤ) :=
  h.2 _ (validRow_getD_mem_lives h hj)

/-- Every entry of a valid row (or the `getD` default) lies in `[-m, m)`
once the cloud is nonempty. -/
theorem validRow_getD_bounds {m : ℕ} {row : List ℤ} (h : validRow m row)
    (hm : 1 ≤ m) (j : ℕ) :
    -(m : ℤ) ≤ row.getD j (-1) ∧ row.getD j (-1) < (m : ℤ) := by
  by_cases hj : j < row.length
  · have hmem : row.getD j (-1) ∈ row := by
      rw [List.getD_eq_getElem?_getD, List.getElem?_eq_getElem hj]
      exact List.getElem_mem hj
    rcases validRow_mem_cases h hmem with ⟨h1, h2⟩ | h1
    · omega
    · omega
  · rw [List.getD_eq_getElem?_getD, List.getElem?_eq_none (by omega)]
    simp only [Option.getD_none]
    omega

/-- Shape of the assembled matrix: `m` rows of length `m`. -/
def Kshape (m : ℕ) (K : Matq) : Prop :=
  K.length = m ∧ ∀ r ∈ K, r.length = m

theorem Kshape_zerosM (m : ℕ) : Kshape m (zerosM m) := by
  constructor
  · exact zerosM_length
  · intro r hr
    rw [List.eq_of_mem_replicate hr]
    simp

theorem Kshape_row_length {m : ℕ} {K : Matq} (h : Kshape m K) {i : ℕ}
    (hi : i < m) : (K.getD i []).length = m := by
  have hi2 : i < K.length := by rw [h.1]; exact hi
  rw [List.getD_eq_getElem?_getD, List.getElem?_eq_getElem hi2]
  exact h.2 _ (List.getElem_mem hi2)

theorem Kshape_Kset {m : ℕ} {A : Matq} {i j : ℕ} {v : ℚ}
    (h : Kshape m A) : Kshape m (Kset A i j v) := by
  constructor
  · rw [Kset_length, h.1]
  · intro r hr
    by_cases hi : i < A.length
    · rcases List.mem_or_eq_of_mem_set hr with hr | hr
      · exact h.2 _ hr
      · rw [hr, List.length_set]
        rw [List.getD_eq_getElem?_getD, List.getElem?_eq_getElem hi]
        exact h.2 _ (List.getElem_mem hi)
    · unfold Kset at hr
      rw [List.set_eq_of_length_le (by omega)] at hr
      exact h.2 _ hr

theorem foldExcept_append {σ α : Type} (f : σ → α → Except Err σ)
    (init : σ) (l1 l2 : List α) :
    foldExcept f init (l1 ++ l2) =
      foldExcept f init l1 >>= fun s => foldExcept f s l2 := by
  induction l1 generalizing init with
  | nil => rw [List.nil_append, foldExcept_nil, ok_bind]
  | cons a l ih =>
    rw [List.cons_append, foldExcept_cons, foldExcept_cons]
    cases hfa : f init a with
    | error e => simp only [hfa, error_bind]
    | ok s => simp only [hfa, ok_bind]; exact ih s

/-- The node loop of `Gammas.Cloud` visits `0, ..., i-1`, then `i`, then
`i+1, ..., m-1`. -/
theorem range_split {m i : ℕ} (hi : i < m) :
    List.range m = List.range i ++ i :: List.range' (i + 1) (m - i - 1) := by
  have h1 : List.range' 0 i ++ List.range' (0 + i) (m - i) =
      List.range' 0 ((m - i) + i) := List.range'_append_1 0 i (m - i)
  have h2 : List.range' i (m - i) = i :: List.range' (i + 1) (m - i - 1) := by
    rw [show m - i = (m - i - 1) + 1 from by omega, List.range'_succ]
    norm_num
  rw [List.range_eq_range']
  calc List.range' 0 m = List.range' 0 ((m - i) + i) := by
        rw [show (m - i) + i = m from by omega]
    _ = List.range' 0 i ++ List.range' (0 + i) (m - i) := h1.symm
    _ = List.range i ++ i :: List.range' (i + 1) (m - i - 1) := by
        rw [← List.range_eq_range', show 0 + i = i from by omega, h2]

theorem mapExcept_eq_map {α β : Type} {f : α → Except Err β} {g : α → β}
    {l : List α} (h : ∀ a ∈ l, f a = .ok (g a)) :
    mapExcept f l = .ok (l.map g) := by
  induction l with
  | nil => rfl
  | cons a l ih =>
    rw [mapExcept_cons, h a (List.mem_cons_self a l), ok_bind,
      ih (fun x hx => h x (List.mem_cons_of_mem a hx)), ok_bind]
    rfl

theorem foldExcept_eq_foldl {σ α : Type} {f : σ → α → Except Err σ}
    {g : σ → α → σ} {l : List α}
    (h : ∀ s, ∀ a ∈ l, f s a = .ok (g s a)) (init : σ) :
    foldExcept f init l = .ok (l.foldl g init) := by
  induction l generalizing init with
  | nil => rfl
  | cons a l ih =>
    rw [foldExcept_cons, h init a (List.mem_cons_self a l), ok_bind,
      ih (fun s x hx => h s x (List.mem_cons_of_mem a hx)), List.foldl_cons]

/-- Resolved neighbor id at position `j` of the row of node `i` (the value
`int(vec[i, j])` denotes once it is known to be a valid nonnegative id). -/
def liveIdx (vec : List (List ℤ)) (i j : ℕ) : ℕ :=
  ((vec.getD i []).getD j (-1)).toNat

/-- The list of offsets `(dx_j, dy_j)` the interior branch computes. -/
def dxyList (p : List Node) (vec : List (List ℤ)) (i : ℕ) :
    List (ℚ × ℚ) :=
  (List.range (liveCount (vec.getD i []))).map (fun j =>
    (xOf p (liveIdx vec i j) - xOf p i, yOf p (liveIdx vec i j) - yOf p i))

/-- The stencil weights `YY = pinv(M) @ L` of the interior branch. -/
def YYlist (pinv : Matq → Matq) (p : List Node) (vec : List (List ℤ))
    (L : List ℚ) (i : ℕ) : List ℚ :=
  (List.range (liveCount (vec.getD i []))).map (fun j =>
    ((List.range 5).map (fun k =>
      mget (pinv (Gammas.designM (dxyList p vec i))) j k * L.getD k 0)).sum)

/-- The write sequence of the interior branch: the central weight
`-sum(YY)` at `(i, i)`, then `YY_j` at `(i, vec[i, j])`. -/
def stepWrites (pinv : Matq → Matq) (p : List Node) (vec : List (List ℤ))
    (L : List ℚ) (i : ℕ) (K : Matq) : Matq :=
  (List.range (liveCount (vec.getD i []))).foldl
    (fun Kc j => Kset Kc i (liveIdx vec i j)
      ((YYlist pinv p vec L i).getD j 0))
    (Kset K i i (-((YYlist pinv p vec L i).sum)))

/-- On an interior node with a valid neighbor row and a five-entry
operator, `cloudStep` succeeds and performs exactly the `stepWrites`
sequence, setting the running `nvec` to the live count. -/
theorem cloudStep_interior_eval {pinv : Matq → Matq} {p : List Node}
    {vec : List (List ℤ)} {L : List ℚ} {st : Matq × ℕ} {i : ℕ}
    (ht : tagOf p i = 0) (hL : L.length = 5)
    (hrow : validRow p.length (vec.getD i [])) :
    Gammas.cloudStep pinv p vec L st i =
      .ok (stepWrites pinv p vec L i st.1, liveCount (vec.getD i [])) := by
  unfold Gammas.cloudStep
  dsimp only
  rw [if_pos ht]
  have hreads : ∀ j ∈ List.range (liveCount (vec.getD i [])),
      (readIdx p.length ((vec.getD i []).getD j (-1)) >>= fun v1 =>
        pure (xOf p v1 - xOf p i, yOf p v1 - yOf p i) :
          Except Err (ℚ × ℚ)) =
      .ok (xOf p (liveIdx vec i j) - xOf p i,
           yOf p (liveIdx vec i j) - yOf p i) := by
    intro j hj
    obtain ⟨h0, h1⟩ := validRow_getD_live hrow (List.mem_range.mp hj)
    rw [readIdx_ok_nonneg h0 h1, ok_bind]
    rfl
  rw [mapExcept_eq_map hreads, ok_bind, if_pos hL]
  have hwrites : ∀ (YY : List ℚ) (s : Matq),
      ∀ j ∈ List.range (liveCount (vec.getD i [])),
      (readIdx p.length ((vec.getD i []).getD j (-1)) >>= fun c =>
        pure (Kset s i c (YY.getD j 0)) : Except Err Matq) =
      .ok (Kset s i (liveIdx vec i j) (YY.getD j 0)) := by
    intro YY s j hj
    obtain ⟨h0, h1⟩ := validRow_getD_live hrow (List.mem_range.mp hj)
    rw [readIdx_ok_nonneg h0 h1, ok_bind]
    rfl
  rw [foldExcept_eq_foldl (hwrites _), ok_bind]
  rfl

/-- On an interior node with a valid neighbor row but an operator column
that does not have 5 entries, the `M @ L` product of line 52 raises the
shape mismatch. -/
theorem cloudStep_interior_shape_error {pinv : Matq → Matq} {p : List Node}
    {vec : List (List ℤ)} {L : List ℚ} {st : Matq × ℕ} {i : ℕ}
    (ht : tagOf p i = 0) (hL : ¬L.length = 5)
    (hrow : validRow p.length (vec.getD i [])) :
    Gammas.cloudStep pinv p vec L st i = .error .shapeMismatch := by
  unfold Gammas.cloudStep
  dsimp only
  rw [if_pos ht]
  have hreads : ∀ j ∈ List.range (liveCount (vec.getD i [])),
      (readIdx p.length ((vec.getD i []).getD j (-1)) >>= fun v1 =>
        pure (xOf p v1 - xOf p i, yOf p v1 - yOf p i) :
          Except Err (ℚ × ℚ)) =
      .ok (xOf p (liveIdx vec i j) - xOf p i,
           yOf p (liveIdx vec i j) - yOf p i) := by
    intro j hj
    obtain ⟨h0, h1⟩ := validRow_getD_live hrow (List.mem_range.mp hj)
    rw [readIdx_ok_nonneg h0 h1, ok_bind]
    rfl
  rw [mapExcept_eq_map hreads, ok_bind, if_neg hL]

/-- On a boundary node (tag 1 or 2) with valid rows, `cloudStep` succeeds,
keeps the running `nvec`, and modifies only row `i` while preserving the
shape. -/
theorem cloudStep_boundary_eval {pinv : Matq → Matq} {p : List Node}
    {vec : List (List ℤ)} {L : List ℚ} {st : Matq × ℕ} {i : ℕ}
    (ht0 : ¬tagOf p i = 0) (ht : tagOf p i = 1 ∨ tagOf p i = 2)
    (hm : 1 ≤ p.length) (hrow : validRow p.length (vec.getD i [])) :
    ∃ K2, Gammas.cloudStep pinv p vec L st i = .ok (K2, st.2) ∧
      (∀ i2 j2, i2 ≠ i → mget K2 i2 j2 = mget st.1 i2 j2) ∧
      (Kshape p.length st.1 → Kshape p.length K2) := by
  unfold Gammas.cloudStep
  dsimp only
  rw [if_neg ht0, if_pos ht]
  have hsteps : ∀ (s : Matq), ∀ j ∈ List.range st.2,
      ∃ K2, (readIdx p.length ((vec.getD i []).getD j (-1)) >>= fun c =>
        pure (Kset s i c 0) : Except Err Matq) = .ok K2 ∧
        (∀ i2 j2, i2 ≠ i → mget K2 i2 j2 = mget s i2 j2) ∧
        (Kshape p.length s → Kshape p.length K2) := by
    intro s j _
    obtain ⟨h0, h1⟩ := validRow_getD_bounds hrow hm j
    obtain ⟨c, hc, _⟩ := readIdx_ok h0 h1
    refine ⟨Kset s i c 0, by rw [hc, ok_bind]; rfl, ?_,
      fun hsh => Kshape_Kset hsh⟩
    intro i2 j2 hne
    exact mget_Kset_other (Or.inl hne)
  -- run the fold keeping track of locality and shape
  have main : ∀ (l : List ℕ), (∀ j ∈ l, j ∈ List.range st.2) → ∀ (s : Matq),
      ∃ K2, foldExcept (fun Kc j =>
          readIdx p.length ((vec.getD i []).getD j (-1)) >>= fun c =>
            pure (Kset Kc i c 0)) s l = .ok K2 ∧
        (∀ i2 j2, i2 ≠ i → mget K2 i2 j2 = mget s i2 j2) ∧
        (Kshape p.length s → Kshape p.length K2) := by
    intro l
    induction l with
    | nil => exact fun _ s => ⟨s, rfl, fun _ _ _ => rfl, fun h => h⟩
    | cons a l ih =>
      intro hmem s
      obtain ⟨K1, hK1, hloc1, hsh1⟩ :=
        hsteps s a (hmem a (List.mem_cons_self a l))
      obtain ⟨K2, hK2, hloc2, hsh2⟩ :=
        ih (fun j hj => hmem j (List.mem_cons_of_mem a hj)) K1
      refine ⟨K2, ?_, ?_, fun hsh => hsh2 (hsh1 hsh)⟩
      · rw [foldExcept_cons, hK1, ok_bind, hK2]
      · intro i2 j2 hne
        rw [hloc2 i2 j2 hne, hloc1 i2 j2 hne]
  obtain ⟨K2, hK2, hloc, hsh⟩ := main (List.range st.2) (fun _ h => h)
    (Kset st.1 i i 1)
  refine ⟨K2, ?_, ?_, ?_⟩
  · rw [hK2, ok_bind]
    rfl
  · intro i2 j2 hne
    rw [hloc i2 j2 hne, mget_Kset_other (Or.inl hne)]
  · intro hshape
    exact hsh (Kshape_Kset hshape)

theorem sum_getD_range (l : List ℚ) :
    ∑ j in Finset.range l.length, l.getD j 0 = l.sum := by
  induction l with
  | nil => simp
  | cons a t ih =>
    rw [List.length_cons, Finset.sum_range_succ']
    simp only [List.getD_cons_succ, List.getD_cons_zero, ih]
    rw [List.sum_cons, add_comm]

theorem sum_mget_Kset {m : ℕ} {A : Matq} {i c : ℕ} {v : ℚ}
    (hsh : Kshape m A) (hi : i < m) (hc : c < m) :
    ∑ j in Finset.range m, mget (Kset A i c v) i j =
      (∑ j in Finset.range m, mget A i j) - mget A i c + v := by
  have hpt : ∀ j ∈ Finset.range m,
      mget (Kset A i c v) i j = if j = c then v else mget A i j := by
    intro j _
    by_cases hjc : j = c
    · subst hjc
      rw [if_pos rfl]
      exact mget_Kset_same (by rw [hsh.1]; exact hi)
        (by rw [Kshape_row_length hsh hi]; exact hc)
    · rw [if_neg hjc]
      exact mget_Kset_other (Or.inr hjc)
  rw [Finset.sum_congr rfl hpt]
  have hcm : c ∈ Finset.range m := Finset.mem_range.mpr hc
  rw [← Finset.add_sum_erase _ _ hcm, if_pos rfl,
    Finset.sum_congr rfl (fun j hj =>
      if_neg (Finset.ne_of_mem_erase hj) :
      ∀ j ∈ (Finset.range m).erase c,
        (if j = c then v else mget A i j) = mget A i j),
    Finset.sum_erase_eq_sub hcm]
  ring

theorem foldl_Kset_other_rows {i i2 j2 : ℕ} (hne : i2 ≠ i) (cs : ℕ → ℕ)
    (vs : ℕ → ℚ) : ∀ (l : List ℕ) (K : Matq),
    mget (l.foldl (fun Kc j => Kset Kc i (cs j) (vs j)) K) i2 j2 =
      mget K i2 j2 := by
  intro l
  induction l with
  | nil => intro K; rfl
  | cons a l ih =>
    intro K
    rw [List.foldl_cons, ih, mget_Kset_other (Or.inl hne)]

theorem foldl_Kset_shape {m i : ℕ} (cs : ℕ → ℕ) (vs : ℕ → ℚ) :
    ∀ (l : List ℕ) (K : Matq), Kshape m K →
      Kshape m (l.foldl (fun Kc j => Kset Kc i (cs j) (vs j)) K) := by
  intro l
  induction l with
  | nil => exact fun K h => h
  | cons a l ih =>
    intro K h
    rw [List.foldl_cons]
    exact ih _ (Kshape_Kset h)

/-- The interior write sequence touches only row `i`. -/
theorem stepWrites_other_rows {pinv : Matq → Matq} {p : List Node}
    {vec : List (List ℤ)} {L : List ℚ} {i : ℕ} {K : Matq} {i2 j2 : ℕ}
    (hne : i2 ≠ i) :
    mget (stepWrites pinv p vec L i K) i2 j2 = mget K i2 j2 := by
  unfold stepWrites
  rw [foldl_Kset_other_rows hne, mget_Kset_other (Or.inl hne)]

theorem stepWrites_shape {m : ℕ} {pinv : Matq → Matq} {p : List Node}
    {vec : List (List ℤ)} {L : List ℚ} {i : ℕ} {K : Matq}
    (hsh : Kshape m K) : Kshape m (stepWrites pinv p vec L i K) := by
  unfold stepWrites
  exact foldl_Kset_shape _ _ _ _ (Kshape_Kset hsh)

/-- C8's degenerate stencil: with an all-sentinel neighbor row, the only
write of the interior branch is `K[i,i] = -sum([]) = 0`. -/
theorem stepWrites_empty {m : ℕ} {pinv : Matq → Matq} {p : List Node}
    {vec : List (List ℤ)} {L : List ℚ} {i : ℕ} {K : Matq}
    (hempty : liveCount (vec.getD i []) = 0) (hsh : Kshape m K)
    (hi : i < m) (j2 : ℕ) :
    mget (stepWrites pinv p vec L i K) i j2 =
      if j2 = i then 0 else mget K i j2 := by
  have hYY : YYlist pinv p vec L i = [] := by
    unfold YYlist
    rw [hempty]
    rfl
  unfold stepWrites
  rw [hempty, hYY]
  simp only [List.range_zero, List.foldl_nil, List.sum_nil, neg_zero]
  by_cases hj : j2 = i
  · subst hj
    rw [if_pos rfl]
    exact mget_Kset_same (by rw [hsh.1]; exact hi)
      (by rw [Kshape_row_length hsh hi]; exact hi)
  · rw [if_neg hj, mget_Kset_other (Or.inr hj)]

/-- C3's core: on an interior node whose live neighbor entries are
pairwise distinct, different from `i`, and written into an all-zero row,
the written row sums to zero and its diagonal is the negated sum of the
neighbor weights. -/
theorem stepWrites_interior_row {m : ℕ} {pinv : Matq → Matq}
    {p : List Node} {vec : List (List ℤ)} {L : List ℚ} {i : ℕ} {K : Matq}
    (hrow : validRow m (vec.getD i [])) (hsh : Kshape m K) (hi : i < m)
    (hNd : (lives (vec.getD i [])).Nodup)
    (hni : (i : ℤ) ∉ lives (vec.getD i []))
    (hzero : ∀ j2 < m, mget K i j2 = 0) :
    (∑ j2 in Finset.range m, mget (stepWrites pinv p vec L i K) i j2 = 0) ∧
    mget (stepWrites pinv p vec L i K) i i =
      -((YYlist pinv p vec L i).sum) := by
  have hn : liveCount (vec.getD i []) = (lives (vec.getD i [])).length :=
    liveCount_eq_length_lives _
  have hYYlen : (YYlist pinv p vec L i).length =
      liveCount (vec.getD i []) := by
    unfold YYlist
    simp
  -- facts about the resolved neighbor columns
  have hcs_lt : ∀ j < liveCount (vec.getD i []), liveIdx vec i j < m := by
    intro j hj
    obtain ⟨h0, h1⟩ := validRow_getD_live hrow hj
    unfold liveIdx
    omega
  have hcs_ne : ∀ j < liveCount (vec.getD i []), liveIdx vec i j ≠ i := by
    intro j hj hc
    have hmem := validRow_getD_mem_lives hrow hj
    obtain ⟨h0, _⟩ := validRow_getD_live hrow hj
    apply hni
    have : ((vec.getD i []).getD j (-1)) = (i : ℤ) := by
      unfold liveIdx at hc
      omega
    rw [← this]
    exact hmem
  have hcs_inj : ∀ j1 < liveCount (vec.getD i []),
      ∀ j2 < liveCount (vec.getD i []),
      liveIdx vec i j1 = liveIdx vec i j2 → j1 = j2 := by
    intro j1 hj1 j2 hj2 hc
    obtain ⟨h01, _⟩ := validRow_getD_live hrow hj1
    obtain ⟨h02, _⟩ := validRow_getD_live hrow hj2
    have hz : (vec.getD i []).getD j1 (-1) = (vec.getD i []).getD j2 (-1) := by
      unfold liveIdx at hc
      omega
    rw [validRow_getD_eq_lives hrow (by omega),
      validRow_getD_eq_lives hrow (by omega)] at hz
    have hj1l : j1 < (lives (vec.getD i [])).length := by omega
    have hj2l : j2 < (lives (vec.getD i [])).length := by omega
    have e1 : (lives (vec.getD i [])).getD j1 (-1) =
        (lives (vec.getD i [])).get ⟨j1, hj1l⟩ := by
      rw [List.getD_eq_getElem?_getD (lives (vec.getD i [])) j1 (-1),
        List.getElem?_eq_getElem hj1l]
      rfl
    have e2 : (lives (vec.getD i [])).getD j2 (-1) =
        (lives (vec.getD i [])).get ⟨j2, hj2l⟩ := by
      rw [List.getD_eq_getElem?_getD (lives (vec.getD i [])) j2 (-1),
        List.getElem?_eq_getElem hj2l]
      rfl
    rw [e1, e2] at hz
    exact congrArg Fin.val ((List.Nodup.get_inj_iff hNd).mp hz)
  -- the write loop, processed prefix by prefix
  have main : ∀ r, r ≤ liveCount (vec.getD i []) →
      (∀ j2 < m, j2 ≠ i → (∀ j < r, liveIdx vec i j ≠ j2) →
        mget ((List.range r).foldl (fun Kc j => Kset Kc i (liveIdx vec i j)
          ((YYlist pinv p vec L i).getD j 0))
          (Kset K i i (-((YYlist pinv p vec L i).sum)))) i j2 = 0) ∧
      (mget ((List.range r).foldl (fun Kc j => Kset Kc i (liveIdx vec i j)
          ((YYlist pinv p vec L i).getD j 0))
          (Kset K i i (-((YYlist pinv p vec L i).sum)))) i i =
        -((YYlist pinv p vec L i).sum)) ∧
      (∑ j2 in Finset.range m,
        mget ((List.range r).foldl (fun Kc j => Kset Kc i (liveIdx vec i j)
          ((YYlist pinv p vec L i).getD j 0))
          (Kset K i i (-((YYlist pinv p vec L i).sum)))) i j2 =
        -((YYlist pinv p vec L i).sum) +
          ∑ j in Finset.range r, (YYlist pinv p vec L i).getD j 0) ∧
      Kshape m ((List.range r).foldl (fun Kc j => Kset Kc i (liveIdx vec i j)
          ((YYlist pinv p vec L i).getD j 0))
          (Kset K i i (-((YYlist pinv p vec L i).sum)))) := by
    intro r
    induction r with
    | zero =>
      intro _
      simp only [List.range_zero, List.foldl_nil, Finset.range_zero,
        Finset.sum_empty, add_zero]
      have hbase_same : mget (Kset K i i
          (-((YYlist pinv p vec L i).sum))) i i =
          -((YYlist pinv p vec L i).sum) :=
        mget_Kset_same (by rw [hsh.1]; exact hi)
          (by rw [Kshape_row_length hsh hi]; exact hi)
      refine ⟨?_, hbase_same, ?_, Kshape_Kset hsh⟩
      · intro j2 hj2 hne _
        rw [mget_Kset_other (Or.inr hne), hzero j2 hj2]
      · rw [sum_mget_Kset hsh hi hi, hzero i hi]
        have : ∑ j2 in Finset.range m, mget K i j2 = 0 :=
          Finset.sum_eq_zero (fun j2 hj2 =>
            hzero j2 (Finset.mem_range.mp hj2))
        rw [this]
        ring
    | succ r ih =>
      intro hr
      obtain ⟨ih1, ih2, ih3, ih4⟩ := ih (by omega)
      rw [List.range_succ, List.foldl_append, List.foldl_cons,
        List.foldl_nil]
      have hcr_lt : liveIdx vec i r < m := hcs_lt r (by omega)
      have hcr_ne : liveIdx vec i r ≠ i := hcs_ne r (by omega)
      refine ⟨?_, ?_, ?_, Kshape_Kset ih4⟩
      · intro j2 hj2 hne hnot
        rw [mget_Kset_other (Or.inr (fun hc =>
          hnot r (by omega) hc.symm))]
        exact ih1 j2 hj2 hne (fun j hj => hnot j (by omega))
      · rw [mget_Kset_other (Or.inr (fun hc => hcr_ne hc.symm))]
        exact ih2
      · rw [sum_mget_Kset ih4 hi hcr_lt]
        have hprev0 : mget ((List.range r).foldl
            (fun Kc j => Kset Kc i (liveIdx vec i j)
              ((YYlist pinv p vec L i).getD j 0))
            (Kset K i i (-((YYlist pinv p vec L i).sum)))) i
            (liveIdx vec i r) = 0 := by
          refine ih1 _ hcr_lt hcr_ne (fun j hj hc => ?_)
          have := hcs_inj j (by omega) r (by omega) hc
          omega
        rw [hprev0, ih3, Finset.sum_range_succ]
        ring
  obtain ⟨_, h2, h3, _⟩ := main (liveCount (vec.getD i []))
    (le_refl _)
  constructor
  · unfold stepWrites
    rw [h3]
    have : ∑ j in Finset.range (liveCount (vec.getD i [])),
        (YYlist pinv p vec L i).getD j 0 = (YYlist pinv p vec L i).sum := by
      rw [← hYYlen]
      exact sum_getD_range _
    rw [this]
    ring
  · unfold stepWrites
    exact h2

/-- On a node whose tag is neither interior nor boundary, `cloudStep` is a
no-op. -/
theorem cloudStep_skip {pinv : Matq → Matq} {p : List Node}
    {vec : List (List ℤ)} {L : List ℚ} {st : Matq × ℕ} {i : ℕ}
    (ht0 : ¬tagOf p i = 0) (ht : ¬(tagOf p i = 1 ∨ tagOf p i = 2)) :
    Gammas.cloudStep pinv p vec L st i = .ok st := by
  unfold Gammas.cloudStep
  dsimp only
  rw [if_neg ht0, if_neg ht]
  rfl

/-- A run of the node loop over indices that avoid `i` succeeds (under row
validity and a five-entry operator), preserves the matrix shape, and
leaves row `i` untouched. -/
theorem cloudFold_ok {pinv : Matq → Matq} {p : List Node}
    {vec : List (List ℤ)} {L : List ℚ} {i : ℕ} (hm : 1 ≤ p.length)
    (hv : ∀ i2 < p.length, validRow p.length (vec.getD i2 []))
    (hL : L.length = 5) :
    ∀ (l : List ℕ), (∀ a ∈ l, a < p.length) → i ∉ l →
      ∀ (st : Matq × ℕ), Kshape p.length st.1 →
      ∃ st2, foldExcept (Gammas.cloudStep pinv p vec L) st l = .ok st2 ∧
        Kshape p.length st2.1 ∧
        (∀ j2, mget st2.1 i j2 = mget st.1 i j2) := by
  intro l
  induction l with
  | nil => exact fun _ _ st hsh => ⟨st, rfl, hsh, fun _ => rfl⟩
  | cons a l ih =>
    intro hmem hni st hsh
    have ha : a < p.length := hmem a (List.mem_cons_self a l)
    have hai : a ≠ i := fun hc => hni (hc ▸ List.mem_cons_self a l)
    have hni2 : i ∉ l := fun hc => hni (List.mem_cons_of_mem a hc)
    have hmem2 : ∀ b ∈ l, b < p.length :=
      fun b hb => hmem b (List.mem_cons_of_mem a hb)
    by_cases ht0 : tagOf p a = 0
    · rw [foldExcept_cons, cloudStep_interior_eval ht0 hL (hv a ha), ok_bind]
      obtain ⟨st2, h1, h2, h3⟩ := ih hmem2 hni2
        (stepWrites pinv p vec L a st.1, liveCount (vec.getD a []))
        (stepWrites_shape hsh)
      refine ⟨st2, h1, h2, fun j2 => ?_⟩
      rw [h3 j2]
      exact stepWrites_other_rows (fun hc => hai hc.symm)
    · by_cases ht12 : tagOf p a = 1 ∨ tagOf p a = 2
      · obtain ⟨K2, hstep, hloc, hshp⟩ :=
          cloudStep_boundary_eval ht0 ht12 hm (hv a ha)
        rw [foldExcept_cons, hstep, ok_bind]
        obtain ⟨st2, h1, h2, h3⟩ := ih hmem2 hni2 (K2, st.2) (hshp hsh)
        refine ⟨st2, h1, h2, fun j2 => ?_⟩
        rw [h3 j2]
        exact hloc i j2 (fun hc => hai hc.symm)
      · rw [foldExcept_cons, cloudStep_skip ht0 ht12, ok_bind]
        exact ih hmem2 hni2 st hsh

/-- `Gammas.Cloud` completes on a valid table with a five-entry
operator. -/
theorem Cloud_ok {pinv : Matq → Matq} {p : List Node}
    {vec : List (List ℤ)} {L : List ℚ}
    (hv : ∀ i2 < p.length, validRow p.length (vec.getD i2 []))
    (hL : L.length = 5) :
    ∃ K, Gammas.Cloud pinv p vec L = .ok K ∧ Kshape p.length K := by
  by_cases hm : 1 ≤ p.length
  · unfold Gammas.Cloud
    obtain ⟨st2, h1, h2, _⟩ := cloudFold_ok hm hv hL (List.range p.length)
      (fun a h => List.mem_range.mp h)
      (fun hc => absurd (List.mem_range.mp hc) (lt_irrefl p.length))
      (zerosM p.length, (vec.headD []).length) (Kshape_zerosM p.length)
    exact ⟨st2.1, by rw [h1, ok_bind]; rfl, h2⟩
  · have h0 : p.length = 0 := by omega
    refine ⟨zerosM p.length, ?_, Kshape_zerosM p.length⟩
    unfold Gammas.Cloud
    rw [h0]
    rfl

/-- With an operator column that does not have five entries (the
default's stripped four), the first interior node aborts the assembly with
the shape mismatch of `M @ L`. -/
theorem Cloud_shape_error {pinv : Matq → Matq} {p : List Node}
    {vec : List (List ℤ)} {L : List ℚ} (hm : 1 ≤ p.length)
    (hv : ∀ i2 < p.length, validRow p.length (vec.getD i2 []))
    (hL : ¬L.length = 5) (hint : ∃ i, i < p.length ∧ tagOf p i = 0) :
    Gammas.Cloud pinv p vec L = .error .shapeMismatch := by
  unfold Gammas.Cloud
  have main : ∀ (l : List ℕ), (∀ a ∈ l, a < p.length) →
      (∃ a ∈ l, tagOf p a = 0) → ∀ (st : Matq × ℕ),
      foldExcept (Gammas.cloudStep pinv p vec L) st l =
        .error .shapeMismatch := by
    intro l
    induction l with
    | nil =>
      intro _ hex st
      obtain ⟨a, ha, _⟩ := hex
      exact absurd ha (List.not_mem_nil a)
    | cons a l ih =>
      intro hmem hex st
      have ha : a < p.length := hmem a (List.mem_cons_self a l)
      by_cases ht0 : tagOf p a = 0
      · rw [foldExcept_cons,
          cloudStep_interior_shape_error ht0 hL (hv a ha), error_bind]
      · have hex2 : ∃ b ∈ l, tagOf p b = 0 := by
          obtain ⟨b, hb, htb⟩ := hex
          rcases List.mem_cons.mp hb with hb | hb
          · exact absurd (hb ▸ htb) ht0
          · exact ⟨b, hb, htb⟩
        have hmem2 : ∀ b ∈ l, b < p.length :=
          fun b hb => hmem b (List.mem_cons_of_mem a hb)
        by_cases ht12 : tagOf p a = 1 ∨ tagOf p a = 2
        · obtain ⟨K2, hstep, _, _⟩ :=
            cloudStep_boundary_eval ht0 ht12 hm (hv a ha)
          rw [foldExcept_cons, hstep, ok_bind]
          exact ih hmem2 hex2 _
        · rw [foldExcept_cons, cloudStep_skip ht0 ht12, ok_bind]
          exact ih hmem2 hex2 st
  obtain ⟨i0, hi0, ht0⟩ := hint
  rw [main (List.range p.length) (fun a h => List.mem_range.mp h)
    ⟨i0, List.mem_range.mpr hi0, ht0⟩ _, error_bind]

/-- Full row description for an interior node: the assembly succeeds and
row `i` of the result is exactly the `stepWrites` sequence applied to an
all-zero row. -/
theorem Cloud_interior_row {pinv : Matq → Matq} {p : List Node}
    {vec : List (List ℤ)} {L : List ℚ} {i : ℕ}
    (hv : ∀ i2 < p.length, validRow p.length (vec.getD i2 []))
    (hL : L.length = 5) (hi : i < p.length) (ht : tagOf p i = 0) :
    ∃ K Kpre, Gammas.Cloud pinv p vec L = .ok K ∧ Kshape p.length K ∧
      Kshape p.length Kpre ∧ (∀ j2 < p.length, mget Kpre i j2 = 0) ∧
      (∀ j2, mget K i j2 = mget (stepWrites pinv p vec L i Kpre) i j2) := by
  have hm : 1 ≤ p.length := by omega
  unfold Gammas.Cloud
  rw [range_split hi, foldExcept_append]
  obtain ⟨st1, h1, hsh1, hrow1⟩ := cloudFold_ok hm hv hL (List.range i)
    (fun a h => lt_trans (List.mem_range.mp h) hi)
    (fun hc => absurd (List.mem_range.mp hc) (lt_irrefl i))
    (zerosM p.length, (vec.headD []).length) (Kshape_zerosM p.length)
  rw [h1, ok_bind, foldExcept_cons,
    cloudStep_interior_eval ht hL (hv i hi), ok_bind]
  have hmem3 : ∀ a ∈ List.range' (i + 1) (p.length - i - 1),
      a < p.length := by
    intro a h
    have hh := List.mem_range'_1.mp h
    omega
  have hni3 : i ∉ List.range' (i + 1) (p.length - i - 1) := by
    intro hc
    have hh := List.mem_range'_1.mp hc
    omega
  obtain ⟨st3, h3, hsh3, hrow3⟩ := cloudFold_ok hm hv hL
    (List.range' (i + 1) (p.length - i - 1)) hmem3 hni3
    (stepWrites pinv p vec L i st1.1, liveCount (vec.getD i []))
    (stepWrites_shape hsh1)
  rw [h3, ok_bind]
  refine ⟨st3.1, st1.1, rfl, hsh3, hsh1, ?_, ?_⟩
  · intro j2 hj2
    rw [hrow1 j2]
    exact mget_zerosM
  · intro j2
    exact hrow3 j2

/-- Closed witness for `C2_theta_family_endpoints` at `m = 1`,
`K = [[5]]`, `λ = 1`, with `pinv` the identity function (which satisfies
`pinv(I) = I`). -/
theorem C2_theta_family_endpoints_witness :
    (0 : ℚ) ≤ 1 ∧ (1 : ℚ) ≤ 1 ∧
      updateTheta (fun M => M) 1 [[5]] 1 = matAdd 1 (identityM 1) [[5]] :=
  ⟨by norm_num, by norm_num,
    (C2_theta_family_endpoints (fun M => M) 1 [[5]] 1 (by norm_num)
      (by norm_num) rfl).2.1⟩

/-- Characterization of the boundary-condition loops (mGFD.py lines
139-140, 223-224): they write `G i k` into every masked entry of every
column `k < t` and leave everything else alone. -/
theorem bcFoldChar (G : ℕ → ℕ → ℚ) (mask : ℕ → Bool) (u0 : ℕ → ℕ → ℚ) :
    ∀ (t : ℕ) (i k2 : ℕ),
      ((List.range t).foldl (fun u k => fun i2 k3 =>
        if k3 = k ∧ mask i2 then G i2 k else u i2 k3) u0) i k2 =
      if k2 < t ∧ mask i then G i k2 else u0 i k2 := by
  intro t
  induction t with
  | zero =>
    intro i k2
    rw [List.range_zero, List.foldl_nil, if_neg (by omega)]
  | succ t ih =>
    intro i k2
    rw [List.range_succ, List.foldl_append, List.foldl_cons, List.foldl_nil]
    by_cases hk : k2 = t
    · subst hk
      by_cases hm : mask i
      · rw [if_pos ⟨rfl, hm⟩, if_pos ⟨by omega, hm⟩]
      · rw [if_neg (fun hc => hm hc.2), ih,
          if_neg (fun hc => hm hc.2), if_neg (fun hc => hm hc.2)]
    · rw [if_neg (fun hc => hk hc.1), ih]
      by_cases hm : mask i
      · by_cases hlt : k2 < t
        · rw [if_pos ⟨hlt, hm⟩, if_pos ⟨by omega, hm⟩]
        · rw [if_neg (fun hc => hlt hc.1), if_neg (by omega)]
      · rw [if_neg (fun hc => hm hc.2), if_neg (fun hc => hm hc.2)]

/-- Characterization of the time-stepping loops (mGFD.py lines 163-165 and
253-259): over levels `1, ..., s` the masked entries of column `k` receive
the update functional `V` evaluated on the current field (which is final
for all earlier columns), every other entry keeps its initial value.  `V`
may read only columns below `k`. -/
theorem tdFoldChar (mask : ℕ → Bool) (V : (ℕ → ℕ → ℚ) → ℕ → ℕ → ℚ)
    (u2 : ℕ → ℕ → ℚ)
    (hV : ∀ (u u' : ℕ → ℕ → ℚ) (k i : ℕ), 1 ≤ k →
      (∀ j k2, k2 < k → u j k2 = u' j k2) → V u k i = V u' k i) :
    ∀ (s : ℕ),
      (∀ i k2, (k2 = 0 ∨ s < k2) →
        ((List.range' 1 s).foldl (fun u k => fun i2 k3 =>
          if k3 = k ∧ mask i2 then V u k i2 else u i2 k3) u2) i k2 =
          u2 i k2) ∧
      (∀ i k2, 1 ≤ k2 → k2 ≤ s →
        ((List.range' 1 s).foldl (fun u k => fun i2 k3 =>
          if k3 = k ∧ mask i2 then V u k i2 else u i2 k3) u2) i k2 =
        if mask i then
          V ((List.range' 1 s).foldl (fun u k => fun i2 k3 =>
            if k3 = k ∧ mask i2 then V u k i2 else u i2 k3) u2) k2 i
        else u2 i k2) := by
  intro s
  induction s with
  | zero =>
    constructor
    · intro i k2 _
      rfl
    · intro i k2 h1 h2
      omega
  | succ s ih =>
    obtain ⟨ih1, ih2⟩ := ih
    have hconcat : List.range' 1 (s + 1) = List.range' 1 s ++ [1 + s] := by
      rw [List.range'_concat]
      norm_num
    have hstep : ∀ i k2, ((List.range' 1 (s + 1)).foldl
        (fun u k => fun i2 k3 =>
          if k3 = k ∧ mask i2 then V u k i2 else u i2 k3) u2) i k2 =
        if k2 = 1 + s ∧ mask i then
          V ((List.range' 1 s).foldl (fun u k => fun i2 k3 =>
            if k3 = k ∧ mask i2 then V u k i2 else u i2 k3) u2) (1 + s) i
        else ((List.range' 1 s).foldl (fun u k => fun i2 k3 =>
          if k3 = k ∧ mask i2 then V u k i2 else u i2 k3) u2) i k2 := by
      intro i k2
      rw [hconcat, List.foldl_append, List.foldl_cons, List.foldl_nil]
    constructor
    · intro i k2 hk
      rw [hstep, if_neg (by omega)]
      exact ih1 i k2 (by omega)
    · intro i k2 h1 h2
      have hagree : ∀ j c, c < k2 →
          ((List.range' 1 s).foldl (fun u k => fun i2 k3 =>
            if k3 = k ∧ mask i2 then V u k i2 else u i2 k3) u2) j c =
          ((List.range' 1 (s + 1)).foldl (fun u k => fun i2 k3 =>
            if k3 = k ∧ mask i2 then V u k i2 else u i2 k3) u2) j c := by
        intro j c hc
        rw [hstep, if_neg (by omega)]
      by_cases hk : k2 = s + 1
      · subst hk
        by_cases hm : mask i
        · rw [hstep, if_pos ⟨by omega, hm⟩, if_pos hm]
          rw [hV _ _ (1 + s) i (by omega)
            (fun j c hc => hagree j c (by omega))]
          rw [show 1 + s = s + 1 from by omega]
        · rw [hstep, if_neg (fun hc => hm hc.2), if_neg hm]
          exact ih1 i (s + 1) (by omega)
      · have hk2 : k2 ≤ s := by omega
        rw [hstep, if_neg (by omega), ih2 i k2 h1 hk2]
        by_cases hm : mask i
        · rw [if_pos hm, if_pos hm]
          exact hV _ _ k2 i h1 (fun j c hc => hagree j c hc)
        · rw [if_neg hm, if_neg hm]

/-- Rows produced by padding a list of in-range node ids with sentinels
are valid `NeighborTable` rows. -/
theorem validRow_padTo {m nvec : ℕ} {l : List ℕ} (hl : ∀ j ∈ l, j < m) :
    validRow m (Neighbors.padTo nvec (l.map (fun n : ℕ => (n : ℤ)))) := by
  have h1 : (l.map (fun n : ℕ => (n : ℤ))).filter (fun z => decide (z ≠ -1)) =
      l.map (fun n : ℕ => (n : ℤ)) := by
    rw [List.filter_eq_self]
    intro z hz
    obtain ⟨a, _, rfl⟩ := List.mem_map.mp hz
    simp
  have h2 : (List.replicate (nvec - (l.map (fun n : ℕ => (n : ℤ))).length)
      (-1 : ℤ)).filter (fun z => decide (z ≠ -1)) = [] := by
    rw [List.filter_eq_nil_iff]
    intro z hz
    rw [List.eq_of_mem_replicate hz]
    simp
  have hlv : lives (Neighbors.padTo nvec (l.map (fun n : ℕ => (n : ℤ)))) =
      l.map (fun n : ℕ => (n : ℤ)) := by
    unfold lives Neighbors.padTo
    rw [List.filter_append, h1, h2, List.append_nil]
  constructor
  · rw [hlv]
    unfold Neighbors.padTo
    have hc : (l.map (fun n : ℕ => (n : ℤ)) ++ List.replicate
        (nvec - (l.map (fun n : ℕ => (n : ℤ))).length) (-1 : ℤ)).length -
        (l.map (fun n : ℕ => (n : ℤ))).length =
        nvec - (l.map (fun n : ℕ => (n : ℤ))).length := by
      rw [List.length_append, List.length_replicate]
      omega
    rw [hc]
  · intro z hz
    rw [hlv] at hz
    obtain ⟨a, ha, rfl⟩ := List.mem_map.mp hz
    have := hl a ha
    exact ⟨by omega, by omega⟩

/-- Every row of the KDTree neighbor search is a valid `NeighborTable`
row: in-range ids first, sentinel padding after. -/
theorem NeighborsCloud_valid (p : List Node) (nvec : ℕ) :
    ∀ i, validRow p.length ((Neighbors.Cloud p nvec).getD i []) := by
  intro i
  unfold Neighbors.Cloud Neighbors.find_neighbors
  by_cases hi : i < p.length
  · rw [List.getD_eq_getElem?_getD, List.getElem?_map,
      List.getElem?_range hi]
    simp only [Option.map_some, Option.getD_some]
    norm_num
    unfold Neighbors.treeRow
    dsimp only
    apply validRow_padTo
    intro j hj
    have hj2 := List.mem_of_mem_filter (List.mem_of_mem_take hj)
    obtain ⟨q, hq, rfl⟩ := List.mem_map.mp hj2
    have hq2 := List.mem_of_mem_take (List.mem_of_mem_filter hq)
    have hq3 := (List.perm_insertionSort Neighbors.pairLe
      ((List.range p.length).map (fun j => (Neighbors.dSq p i j, j)))).mem_iff.mp hq2
    obtain ⟨a, ha, rfl⟩ := List.mem_map.mp hq3
    exact List.mem_range.mp ha
  · rw [List.getD_eq_getElem?_getD, List.getElem?_eq_none (by simpa using hi)]
    exact validRow_nil p.length

/-- Claim C5: called without the operator argument, all three solvers
strip the five-entry default to four coefficients, and the five-row local
design matrix of `Gammas.Cloud` cannot be applied to a four-vector; on any
cloud with an interior node carrying at least one live neighbor the call
fails with the shape mismatch (for the transient solvers, once `t ≥ 2` so
the earlier `dt = T[1]-T[0]` does not raise first). -/
theorem C5_default_operator_shape_mismatch (pinv : Matq → Matq)
    (p : List Node) (phi fs : ℚ → ℚ → ℚ) (f g : ℚ → ℚ → ℚ → ℚ → ℚ)
    (t : ℕ) (coef : ℚ) (implicit : Bool) (lam : ℚ) (ht : 2 ≤ t)
    (hint : ∃ i, i < p.length ∧ tagOf p i = 0 ∧
      0 < liveCount ((Neighbors.Cloud p 8).getD i [])) :
    Stationary pinv p phi fs defaultOperator false [] false =
      .error .shapeMismatch ∧
    TimeDerivative1 pinv p f t coef defaultOperator false [] implicit
      lam false = .error .shapeMismatch ∧
    TimeDerivative2 pinv p f g t coef defaultOperator false [] implicit
      lam false = .error .shapeMismatch := by
  obtain ⟨i0, hi0, hti0, _⟩ := hint
  have hm : 1 ≤ p.length := by omega
  have hv : ∀ i2 < p.length,
      validRow p.length ((Neighbors.Cloud p 8).getD i2 []) :=
    fun i2 _ => NeighborsCloud_valid p 8 i2
  have hexist : ∃ i, i < p.length ∧ tagOf p i = 0 := ⟨i0, hi0, hti0⟩
  have hL4 : ¬(defaultOperator.dropLast).length = 5 := by
    norm_num [defaultOperator]
  have hL4m : ∀ d : ℚ,
      ¬((defaultOperator.dropLast).map (fun c => d * c)).length = 5 := by
    intro d
    norm_num [defaultOperator]
  have hL4m2 : ∀ d : ℚ,
      ¬((defaultOperator.dropLast).map (fun c => d * d * c)).length = 5 := by
    intro d
    norm_num [defaultOperator]
  refine ⟨?_, ?_, ?_⟩
  · unfold Stationary
    dsimp only
    simp only [Bool.false_eq_true, if_false]
    rw [Cloud_shape_error hm hv hL4 hexist]
    rfl
  · unfold TimeDerivative1
    rw [if_neg (by omega : ¬t ≤ 1)]
    dsimp only
    simp only [Bool.false_eq_true, if_false]
    rw [Cloud_shape_error hm hv (hL4m _) hexist]
    rfl
  · unfold TimeDerivative2
    rw [if_neg (by omega : ¬t ≤ 1)]
    dsimp only
    simp only [Bool.false_eq_true, if_false]
    rw [Cloud_shape_error hm hv (hL4m2 _) hexist]
    rfl

/-- Closed witness for `C5_default_operator_shape_mismatch`: the two-node
cloud whose interior node 0 has node 1 as a live neighbor. -/
theorem C5_default_operator_shape_mismatch_witness :
    2 ≤ 2 ∧
    (∃ i, i < ([(0, 0, 0), (1, 0, 1)] : List Node).length ∧
      tagOf [(0, 0, 0), (1, 0, 1)] i = 0 ∧
      0 < liveCount ((Neighbors.Cloud [(0, 0, 0), (1, 0, 1)] 8).getD i [])) ∧
    Stationary (fun M => M) [(0, 0, 0), (1, 0, 1)] (fun _ _ => 0)
      (fun _ _ => 0) defaultOperator false [] false =
        .error .shapeMismatch := by
  have hint : ∃ i, i < ([(0, 0, 0), (1, 0, 1)] : List Node).length ∧
      tagOf [(0, 0, 0), (1, 0, 1)] i = 0 ∧
      0 < liveCount ((Neighbors.Cloud [(0, 0, 0), (1, 0, 1)] 8).getD i []) := by
    refine ⟨0, by norm_num, by norm_num [tagOf], ?_⟩
    norm_num [Neighbors.Cloud, Neighbors.find_neighbors, Neighbors.treeRow,
      Neighbors.find_distancesSq, Neighbors.dSq3, Neighbors.dSq,
      Neighbors.minListD, Neighbors.maxListD, Neighbors.padTo,
      Neighbors.pairLe, List.insertionSort, List.orderedInsert, liveCount,
      xOf, yOf, tagOf, List.range_succ, List.replicate]
  exact ⟨by norm_num, hint,
    (C5_default_operator_shape_mismatch (fun M => M) [(0, 0, 0), (1, 0, 1)]
      (fun _ _ => 0) (fun _ _ => 0) (fun _ _ _ _ => 0) (fun _ _ _ _ => 0)
      2 0 false 0 (by norm_num) hint).1⟩

/-- Claim C3: for every point cloud, valid neighbor table whose live
entries in each row are pairwise distinct and different from the row's own
index, and 5-coefficient operator, each interior row of the assembled `K`
sums exactly to zero: the diagonal is the negated sum of the off-diagonal
weights, and the row annihilates every constant field. -/
theorem C3_interior_row_sums_to_zero (pinv : Matq → Matq) (p : List Node)
    (vec : List (List ℤ)) (L : List ℚ) (i : ℕ)
    (hv : ∀ i2 < p.length, validRow p.length (vec.getD i2 []))
    (hL : L.length = 5) (hi : i < p.length) (ht : tagOf p i = 0)
    (hNd : (lives (vec.getD i [])).Nodup)
    (hni : (i : ℤ) ∉ lives (vec.getD i [])) :
    ∃ K, Gammas.Cloud pinv p vec L = .ok K ∧
      (∑ j2 in Finset.range p.length, mget K i j2 = 0) ∧
      (mget K i i = -(∑ j2 in Finset.range p.length,
        if j2 = i then 0 else mget K i j2)) ∧
      (∀ c : ℚ, ∑ j2 in Finset.range p.length, mget K i j2 * c = 0) := by
  obtain ⟨K, Kpre, hK, _, hshpre, hzero, hrowi⟩ :=
    @Cloud_interior_row pinv p vec L i hv hL hi ht
  obtain ⟨hsum, _⟩ := stepWrites_interior_row (hv i hi) hshpre hi hNd
    hni hzero
  have hsum2 : ∑ j2 in Finset.range p.length, mget K i j2 = 0 := by
    rw [Finset.sum_congr rfl (fun j2 _ => hrowi j2)]
    exact hsum
  refine ⟨K, hK, hsum2, ?_, ?_⟩
  · have him : i ∈ Finset.range p.length := Finset.mem_range.mpr hi
    have hsplit : (0 : ℚ) = mget K i i + ∑ j2 in
        (Finset.range p.length).erase i, mget K i j2 := by
      rw [Finset.add_sum_erase _ _ him, hsum2]
    have hoff : ∑ j2 in Finset.range p.length,
        (if j2 = i then 0 else mget K i j2) =
        ∑ j2 in (Finset.range p.length).erase i, mget K i j2 := by
      rw [← Finset.add_sum_erase _ _ him, if_pos rfl, zero_add]
      exact Finset.sum_congr rfl (fun j2 hj2 =>
        if_neg (Finset.ne_of_mem_erase hj2))
    rw [hoff]
    linarith
  · intro c
    rw [← Finset.sum_mul, hsum2, zero_mul]

/-- Closed witness for `C3_interior_row_sums_to_zero`: a two-node cloud
whose interior node 0 has the single live neighbor 1. -/
theorem C3_interior_row_sums_to_zero_witness :
    (∀ i2 < ([(0, 0, 0), (1, 0, 1)] : List Node).length,
      validRow 2 (([[1, -1], [-1, -1]] : List (List ℤ)).getD i2 [])) ∧
    ([0, 0, 2, 0, 2] : List ℚ).length = 5 ∧
    tagOf [(0, 0, 0), (1, 0, 1)] 0 = 0 ∧
    (lives (([[1, -1], [-1, -1]] : List (List ℤ)).getD 0 [])).Nodup ∧
    ∃ K, Gammas.Cloud (fun M => M) [(0, 0, 0), (1, 0, 1)]
        [[1, -1], [-1, -1]] [0, 0, 2, 0, 2] = .ok K ∧
      (∑ j2 in Finset.range 2, mget K 0 j2 = 0) ∧
      (mget K 0 0 = -(∑ j2 in Finset.range 2,
        if j2 = 0 then 0 else mget K 0 j2)) ∧
      (∀ c : ℚ, ∑ j2 in Finset.range 2, mget K 0 j2 * c = 0) :=
  ⟨by decide, by norm_num, by norm_num [tagOf], by decide,
    C3_interior_row_sums_to_zero (fun M => M) [(0, 0, 0), (1, 0, 1)]
      [[1, -1], [-1, -1]] [0, 0, 2, 0, 2] 0 (by decide) (by norm_num)
      (by norm_num) (by norm_num [tagOf]) (by decide) (by decide)⟩

/-- Claim C8: an interior node whose neighbor row is entirely the sentinel
is absorbed silently: with a valid table and 5-entry operator the assembly
completes without an error and the degenerate node's row of `K` is
all-zero, including its diagonal. -/
theorem C8_empty_stencil_absorbed_silently (pinv : Matq → Matq)
    (p : List Node) (vec : List (List ℤ)) (L : List ℚ) (i : ℕ)
    (hv : ∀ i2 < p.length, validRow p.length (vec.getD i2 []))
    (hL : L.length = 5) (hi : i < p.length) (ht : tagOf p i = 0)
    (hrow : ∀ z ∈ vec.getD i [], z = -1) :
    ∃ K, Gammas.Cloud pinv p vec L = .ok K ∧
      (∀ j2 < p.length, mget K i j2 = 0) ∧ mget K i i = 0 := by
  have hempty : liveCount (vec.getD i []) = 0 := by
    unfold liveCount
    rw [List.countP_eq_zero]
    intro z hz
    simpa using hrow z hz
  obtain ⟨K, Kpre, hK, _, hshpre, hzero, hrowi⟩ :=
    @Cloud_interior_row pinv p vec L i hv hL hi ht
  have hval : ∀ j2 < p.length, mget K i j2 = 0 := by
    intro j2 hj2
    rw [hrowi j2, stepWrites_empty hempty hshpre hi j2]
    by_cases hji : j2 = i
    · rw [if_pos hji]
    · rw [if_neg hji]
      exact hzero j2 hj2
  exact ⟨K, hK, hval, hval i hi⟩

/-- Closed witness for `C8_empty_stencil_absorbed_silently`: interior node
0 with an all-sentinel row next to a boundary node. -/
theorem C8_empty_stencil_absorbed_silently_witness :
    (∀ z ∈ ([[-1, -1], [0, -1]] : List (List ℤ)).getD 0 [], z = -1) ∧
    ∃ K, Gammas.Cloud (fun M => M) [(0, 0, 0), (1, 0, 1)]
        [[-1, -1], [0, -1]] [0, 0, 2, 0, 2] = .ok K ∧
      (∀ j2 < ([(0, 0, 0), (1, 0, 1)] : List Node).length,
        mget K 0 j2 = 0) ∧ mget K 0 0 = 0 :=
  ⟨by decide,
    C8_empty_stencil_absorbed_silently (fun M => M) [(0, 0, 0), (1, 0, 1)]
      [[-1, -1], [0, -1]] [0, 0, 2, 0, 2] 0 (by decide) (by norm_num)
      (by norm_num) (by norm_num [tagOf]) (by decide)⟩


/-- The field after the boundary-condition loop and the initial-condition
overwrite of `TimeDerivative1`/`TimeDerivative2` (lines 139-143 resp.
222-227), as it stands when the time loop starts. -/
def tdInit (p : List Node) (f : ℚ → ℚ → ℚ → ℚ → ℚ) (t : ℕ) (coef : ℚ) :
    ℕ → ℕ → ℚ := fun i k2 =>
  if k2 = 0 ∧ i < p.length then
    f (xOf p i) (yOf p i) ((0 : ℕ) / ((t : ℚ) - 1)) coef
  else ((List.range t).foldl (fun (u : ℕ → ℕ → ℚ) (k : ℕ) => fun i2 k3 =>
    if k3 = k ∧ bounB p i2 then
      f (xOf p i2) (yOf p i2) ((k : ℚ) / ((t : ℚ) - 1)) coef
    else u i2 k3) (fun _ _ => 0)) i k2

/-- The final approximation field of `TimeDerivative1` on the explicit
path (lines 158-165) for an assembled `K`. -/
def td1Field (p : List Node) (f : ℚ → ℚ → ℚ → ℚ → ℚ) (t : ℕ) (coef : ℚ)
    (K : Matq) : ℕ → ℕ → ℚ :=
  (List.range' 1 (t - 1)).foldl (fun u k => fun i k2 =>
    if k2 = k ∧ inneB p i then
      rowDot p.length (matAdd p.length (identityM p.length) K) i
        (fun j => u j (k - 1))
    else u i k2) (tdInit p f t coef)

/-- The reference field `u_ex` of the transient solvers (lines 168-169,
262-263). -/
def tdExact (p : List Node) (f : ℚ → ℚ → ℚ → ℚ → ℚ) (t : ℕ) (coef : ℚ) :
    ℕ → ℕ → ℚ := fun i k =>
  if i < p.length ∧ k < t then
    f (xOf p i) (yOf p i) ((k : ℚ) / ((t : ℚ) - 1)) coef
  else 0

/-- Claim C9: `TimeDerivative1` with `Adv=False`, `implicit=False`,
`t ≥ 2` (plain-cloud neighbor path): level 0 of the computed field is the
known solution `f` at time 0 at EVERY node; the update matrix is
`I + K` with `K` assembled from the operator coefficients scaled by
`dt = 1/(t-1)`; and at every later level the interior entries are the
update applied to the previous level while the boundary entries are `f` at
that level's time `T[k] = k/(t-1)`. -/
theorem C9_timederivative1_explicit_scheme (pinv : Matq → Matq)
    (p : List Node) (f : ℚ → ℚ → ℚ → ℚ → ℚ) (coef : ℚ) (op : List ℚ)
    (lam : ℚ) (t : ℕ) (ht : 2 ≤ t) (hop : op.length = 6) :
    ∃ u uex vec K,
      TimeDerivative1 pinv p f t coef op false [] false lam false =
        .ok (u, uex, vec) ∧
      vec = Neighbors.Cloud p 8 ∧
      Gammas.Cloud pinv p (Neighbors.Cloud p 8)
        (op.dropLast.map (fun c => 1 / ((t : ℚ) - 1) * c)) = .ok K ∧
      (∀ i < p.length, u i 0 = f (xOf p i) (yOf p i) 0 coef) ∧
      (∀ k, 1 ≤ k → k < t → ∀ i < p.length,
        (tagOf p i = 0 → u i k =
          rowDot p.length (matAdd p.length (identityM p.length) K) i
            (fun j => u j (k - 1))) ∧
        ((tagOf p i = 1 ∨ tagOf p i = 2) → u i k =
          f (xOf p i) (yOf p i) ((k : ℚ) / ((t : ℚ) - 1)) coef)) := by
  have hv : ∀ i2 < p.length,
      validRow p.length ((Neighbors.Cloud p 8).getD i2 []) :=
    fun i2 _ => NeighborsCloud_valid p 8 i2
  have hL5 : (op.dropLast.map (fun c => 1 / ((t : ℚ) - 1) * c)).length = 5 := by
    rw [List.length_map, List.length_dropLast, hop]
  obtain ⟨K, hK, _⟩ := @Cloud_ok pinv p (Neighbors.Cloud p 8)
    (op.dropLast.map (fun c => 1 / ((t : ℚ) - 1) * c)) hv hL5
  have hV : ∀ (u u2 : ℕ → ℕ → ℚ) (k i2 : ℕ), 1 ≤ k →
      (∀ j k2, k2 < k → u j k2 = u2 j k2) →
      rowDot p.length (matAdd p.length (identityM p.length) K) i2
        (fun j => u j (k - 1)) =
      rowDot p.length (matAdd p.length (identityM p.length) K) i2
        (fun j => u2 j (k - 1)) := by
    intro u u2 k i2 hk hag
    refine congrArg (rowDot p.length
      (matAdd p.length (identityM p.length) K) i2) (funext fun j => ?_)
    exact hag j (k - 1) (by omega)
  have hchar := tdFoldChar (fun i2 => inneB p i2)
    (fun u k i2 => rowDot p.length
      (matAdd p.length (identityM p.length) K) i2 (fun j => u j (k - 1)))
    (tdInit p f t coef) hV (t - 1)
  refine ⟨td1Field p f t coef K, tdExact p f t coef, Neighbors.Cloud p 8,
    K, ?_, rfl, hK, ?_, ?_⟩
  · unfold TimeDerivative1
    rw [if_neg (by omega : ¬t ≤ 1)]
    dsimp only
    simp only [Bool.false_eq_true, if_false]
    rw [hK, ok_bind]
    unfold td1Field tdInit tdExact
    rfl
  · intro i hi
    unfold td1Field
    rw [hchar.1 i 0 (Or.inl rfl)]
    unfold tdInit
    rw [if_pos ⟨rfl, hi⟩]
    norm_num
  · intro k h1 h2 i hi
    have hchar2 := hchar.2 i k h1 (by omega)
    constructor
    · intro htag
      have hmask : inneB p i = true := by
        unfold inneB
        simp [hi, htag]
      unfold td1Field
      rw [hchar2, if_pos hmask]
    · intro htag
      have htagne : ¬tagOf p i = 0 := by
        rcases htag with h | h <;> rw [h] <;> norm_num
      have hmask : ¬inneB p i = true := by
        unfold inneB
        simp [htagne]
      unfold td1Field
      rw [hchar2, if_neg hmask]
      unfold tdInit
      rw [if_neg (by omega : ¬(k = 0 ∧ i < p.length))]
      rw [bcFoldChar]
      have hboun : bounB p i = true := by
        unfold bounB
        rcases htag with h | h <;> simp [hi, h]
      rw [if_pos ⟨h2, hboun⟩]

theorem C9_timederivative1_explicit_scheme_witness :
    ((2 : ℕ) ≤ 2 ∧ ([0, 0, 2, 0, 2, 0] : List ℚ).length = 6) ∧
    (∃ u uex vec K,
      TimeDerivative1 (fun M => M) [((0 : ℚ), (0 : ℚ), (1 : ℚ)), (1, 0, 1)]
        (fun x _ s _ => x + s) 2 0 [0, 0, 2, 0, 2, 0] false [] false 0 false =
        .ok (u, uex, vec) ∧
      vec = Neighbors.Cloud [((0 : ℚ), (0 : ℚ), (1 : ℚ)), (1, 0, 1)] 8 ∧
      Gammas.Cloud (fun M => M) [((0 : ℚ), (0 : ℚ), (1 : ℚ)), (1, 0, 1)]
        (Neighbors.Cloud [((0 : ℚ), (0 : ℚ), (1 : ℚ)), (1, 0, 1)] 8)
        (([0, 0, 2, 0, 2, 0] : List ℚ).dropLast.map
          (fun c => 1 / ((2 : ℚ) - 1) * c)) = .ok K ∧
      (∀ i < ([((0 : ℚ), (0 : ℚ), (1 : ℚ)), (1, 0, 1)] : List Node).length,
        u i 0 = (fun x _ s _ => x + s) (xOf [((0 : ℚ), (0 : ℚ), (1 : ℚ)), (1, 0, 1)] i)
          (yOf [((0 : ℚ), (0 : ℚ), (1 : ℚ)), (1, 0, 1)] i) 0 0) ∧
      (∀ k, 1 ≤ k → k < 2 →
        ∀ i < ([((0 : ℚ), (0 : ℚ), (1 : ℚ)), (1, 0, 1)] : List Node).length,
        (tagOf [((0 : ℚ), (0 : ℚ), (1 : ℚ)), (1, 0, 1)] i = 0 →
          u i k = rowDot 2 (matAdd 2 (identityM 2) K) i (fun j => u j (k - 1))) ∧
        ((tagOf [((0 : ℚ), (0 : ℚ), (1 : ℚ)), (1, 0, 1)] i = 1 ∨
          tagOf [((0 : ℚ), (0 : ℚ), (1 : ℚ)), (1, 0, 1)] i = 2) →
          u i k = (fun x _ s _ => x + s) (xOf [((0 : ℚ), (0 : ℚ), (1 : ℚ)), (1, 0, 1)] i)
            (yOf [((0 : ℚ), (0 : ℚ), (1 : ℚ)), (1, 0, 1)] i)
            ((k : ℚ) / ((2 : ℚ) - 1)) 0))) :=
  ⟨⟨by norm_num, by norm_num⟩,
    C9_timederivative1_explicit_scheme (fun M => M)
      [((0 : ℚ), (0 : ℚ), (1 : ℚ)), (1, 0, 1)] (fun x _ s _ => x + s) 0
      [0, 0, 2, 0, 2, 0] 0 2 (by norm_num) (by norm_num)⟩

/-- The final approximation field of `TimeDerivative2` on the explicit
path (lines 241-245 and 252-259) for an assembled `K`. -/
def td2Field (p : List Node) (f g : ℚ → ℚ → ℚ → ℚ → ℚ) (t : ℕ) (coef : ℚ)
    (K : Matq) : ℕ → ℕ → ℚ :=
  (List.range' 1 (t - 1)).foldl (fun u k => fun i k2 =>
    if k2 = k ∧ inneB p i then
      (if k = 1 then
        rowDot p.length (identityM p.length) i (fun j =>
          rowDot p.length
            (matAdd p.length (identityM p.length) (smulM p.length (1 / 2) K))
            j (fun l => u l 0) +
          1 / ((t : ℚ) - 1) * g (xOf p j) (yOf p j) ((1 : ℕ) / ((t : ℚ) - 1)) coef)
      else
        rowDot p.length (identityM p.length) i (fun j =>
          rowDot p.length
            (matAdd p.length (smulM p.length 2 (identityM p.length)) K)
            j (fun l => u l (k - 1)) -
          u j (k - 2)))
    else u i k2) (tdInit p f t coef)

/-- Claim C10: for `TimeDerivative2` with `Adv=False`, `implicit=False` and
`t ≥ 3`: the matrix `K` is assembled from the operator coefficients scaled
by `dt² = (1/(t-1))²`; level 1's interior entries equal those of
`K1·(K2·field[0] + dt·g(coords, T[1]))` with `K1 = Identity` and
`K2 = Identity + (1/2)K`; every level `k ≥ 2`'s interior entries equal
those of `K3·(K4·field[k-1] - field[k-2])` with `K3 = Identity` and
`K4 = 2·Identity + K`; and boundary entries are overwritten with `f`
evaluated at each level's time. -/
theorem C10_timederivative2_two_step_scheme (pinv : Matq → Matq)
    (p : List Node) (f g : ℚ → ℚ → ℚ → ℚ → ℚ) (coef : ℚ) (op : List ℚ)
    (lam : ℚ) (t : ℕ) (ht : 3 ≤ t) (hop : op.length = 6) :
    ∃ u uex vec K,
      TimeDerivative2 pinv p f g t coef op false [] false lam false =
        .ok (u, uex, vec) ∧
      vec = Neighbors.Cloud p 8 ∧
      Gammas.Cloud pinv p (Neighbors.Cloud p 8)
        (op.dropLast.map
          (fun c => 1 / ((t : ℚ) - 1) * (1 / ((t : ℚ) - 1)) * c)) = .ok K ∧
      (∀ i < p.length, tagOf p i = 0 →
        u i 1 = rowDot p.length (identityM p.length) i (fun j =>
          rowDot p.length
            (matAdd p.length (identityM p.length) (smulM p.length (1 / 2) K))
            j (fun l => u l 0) +
          1 / ((t : ℚ) - 1) * g (xOf p j) (yOf p j)
            ((1 : ℕ) / ((t : ℚ) - 1)) coef)) ∧
      (∀ k, 2 ≤ k → k < t → ∀ i < p.length, tagOf p i = 0 →
        u i k = rowDot p.length (identityM p.length) i (fun j =>
          rowDot p.length
            (matAdd p.length (smulM p.length 2 (identityM p.length)) K)
            j (fun l => u l (k - 1)) -
          u j (k - 2))) ∧
      (∀ k, 1 ≤ k → k < t → ∀ i < p.length,
        (tagOf p i = 1 ∨ tagOf p i = 2) →
        u i k = f (xOf p i) (yOf p i) ((k : ℚ) / ((t : ℚ) - 1)) coef) := by
  have hv : ∀ i2 < p.length,
      validRow p.length ((Neighbors.Cloud p 8).getD i2 []) :=
    fun i2 _ => NeighborsCloud_valid p 8 i2
  have hL5 : (op.dropLast.map
      (fun c => 1 / ((t : ℚ) - 1) * (1 / ((t : ℚ) - 1)) * c)).length = 5 := by
    rw [List.length_map, List.length_dropLast, hop]
  obtain ⟨K, hK, _⟩ := @Cloud_ok pinv p (Neighbors.Cloud p 8)
    (op.dropLast.map (fun c => 1 / ((t : ℚ) - 1) * (1 / ((t : ℚ) - 1)) * c))
    hv hL5
  have hV : ∀ (u u2 : ℕ → ℕ → ℚ) (k i2 : ℕ), 1 ≤ k →
      (∀ j k2, k2 < k → u j k2 = u2 j k2) →
      (if k = 1 then
        rowDot p.length (identityM p.length) i2 (fun j =>
          rowDot p.length
            (matAdd p.length (identityM p.length) (smulM p.length (1 / 2) K))
            j (fun l => u l 0) +
          1 / ((t : ℚ) - 1) * g (xOf p j) (yOf p j)
            ((1 : ℕ) / ((t : ℚ) - 1)) coef)
      else
        rowDot p.length (identityM p.length) i2 (fun j =>
          rowDot p.length
            (matAdd p.length (smulM p.length 2 (identityM p.length)) K)
            j (fun l => u l (k - 1)) -
          u j (k - 2))) =
      (if k = 1 then
        rowDot p.length (identityM p.length) i2 (fun j =>
          rowDot p.length
            (matAdd p.length (identityM p.length) (smulM p.length (1 / 2) K))
            j (fun l => u2 l 0) +
          1 / ((t : ℚ) - 1) * g (xOf p j) (yOf p j)
            ((1 : ℕ) / ((t : ℚ) - 1)) coef)
      else
        rowDot p.length (identityM p.length) i2 (fun j =>
          rowDot p.length
            (matAdd p.length (smulM p.length 2 (identityM p.length)) K)
            j (fun l => u2 l (k - 1)) -
          u2 j (k - 2))) := by
    intro u u2 k i2 hk hag
    by_cases hk1 : k = 1
    · rw [if_pos hk1, if_pos hk1]
      refine congrArg (rowDot p.length (identityM p.length) i2)
        (funext fun j => ?_)
      have h0 : (fun l => u l 0) = (fun l => u2 l 0) :=
        funext fun l => hag l 0 (by omega)
      rw [h0]
    · rw [if_neg hk1, if_neg hk1]
      refine congrArg (rowDot p.length (identityM p.length) i2)
        (funext fun j => ?_)
      have h1 : (fun l => u l (k - 1)) = (fun l => u2 l (k - 1)) :=
        funext fun l => hag l (k - 1) (by omega)
      have h2 : u j (k - 2) = u2 j (k - 2) := hag j (k - 2) (by omega)
      rw [h1, h2]
  have hchar := tdFoldChar (fun i2 => inneB p i2)
    (fun u k i2 =>
      if k = 1 then
        rowDot p.length (identityM p.length) i2 (fun j =>
          rowDot p.length
            (matAdd p.length (identityM p.length) (smulM p.length (1 / 2) K))
            j (fun l => u l 0) +
          1 / ((t : ℚ) - 1) * g (xOf p j) (yOf p j)
            ((1 : ℕ) / ((t : ℚ) - 1)) coef)
      else
        rowDot p.length (identityM p.length) i2 (fun j =>
          rowDot p.length
            (matAdd p.length (smulM p.length 2 (identityM p.length)) K)
            j (fun l => u l (k - 1)) -
          u j (k - 2)))
    (tdInit p f t coef) hV (t - 1)
  refine ⟨td2Field p f g t coef K, tdExact p f t coef, Neighbors.Cloud p 8,
    K, ?_, rfl, hK, ?_, ?_, ?_⟩
  · unfold TimeDerivative2
    rw [if_neg (by omega : ¬t ≤ 1)]
    dsimp only
    simp only [Bool.false_eq_true, if_false]
    rw [hK, ok_bind]
    unfold td2Field tdInit tdExact
    rfl
  · intro i hi htag
    have hmask : inneB p i = true := by
      unfold inneB
      simp [hi, htag]
    have hchar2 := hchar.2 i 1 (le_refl 1) (by omega)
    unfold td2Field
    rw [hchar2, if_pos hmask, if_pos rfl]
  · intro k h2k hkt i hi htag
    have hmask : inneB p i = true := by
      unfold inneB
      simp [hi, htag]
    have hchar2 := hchar.2 i k (by omega) (by omega)
    unfold td2Field
    rw [hchar2, if_pos hmask, if_neg (by omega : ¬k = 1)]
  · intro k h1 h2 i hi htag
    have htagne : ¬tagOf p i = 0 := by
      rcases htag with h | h <;> rw [h] <;> norm_num
    have hmask : ¬inneB p i = true := by
      unfold inneB
      simp [htagne]
    have hchar2 := hchar.2 i k h1 (by omega)
    unfold td2Field
    rw [hchar2, if_neg hmask]
    unfold tdInit
    rw [if_neg (by omega : ¬(k = 0 ∧ i < p.length))]
    rw [bcFoldChar]
    have hboun : bounB p i = true := by
      unfold bounB
      rcases htag with h | h <;> simp [hi, h]
    rw [if_pos ⟨h2, hboun⟩]

theorem C10_timederivative2_two_step_scheme_witness :
    ((3 : ℕ) ≤ 3 ∧ ([0, 0, 2, 0, 2, 0] : List ℚ).length = 6) ∧
    (∃ u uex vec K,
      TimeDerivative2 (fun M => M) [((0 : ℚ), (0 : ℚ), (1 : ℚ)), (1, 0, 1)]
        (fun x _ s _ => x + s) (fun _ y s _ => y * s) 3 0 [0, 0, 2, 0, 2, 0]
        false [] false 0 false = .ok (u, uex, vec) ∧
      vec = Neighbors.Cloud [((0 : ℚ), (0 : ℚ), (1 : ℚ)), (1, 0, 1)] 8 ∧
      Gammas.Cloud (fun M => M) [((0 : ℚ), (0 : ℚ), (1 : ℚ)), (1, 0, 1)]
        (Neighbors.Cloud [((0 : ℚ), (0 : ℚ), (1 : ℚ)), (1, 0, 1)] 8)
        (([0, 0, 2, 0, 2, 0] : List ℚ).dropLast.map
          (fun c => 1 / ((3 : ℚ) - 1) * (1 / ((3 : ℚ) - 1)) * c)) = .ok K ∧
      (∀ i < ([((0 : ℚ), (0 : ℚ), (1 : ℚ)), (1, 0, 1)] : List Node).length,
        tagOf [((0 : ℚ), (0 : ℚ), (1 : ℚ)), (1, 0, 1)] i = 0 →
        u i 1 = rowDot 2 (identityM 2) i (fun j =>
          rowDot 2 (matAdd 2 (identityM 2) (smulM 2 (1 / 2) K)) j
            (fun l => u l 0) +
          1 / ((3 : ℚ) - 1) *
            (fun _ y s _ => y * s) (xOf [((0 : ℚ), (0 : ℚ), (1 : ℚ)), (1, 0, 1)] j)
              (yOf [((0 : ℚ), (0 : ℚ), (1 : ℚ)), (1, 0, 1)] j)
              ((1 : ℕ) / ((3 : ℚ) - 1)) 0)) ∧
      (∀ k, 2 ≤ k → k < 3 →
        ∀ i < ([((0 : ℚ), (0 : ℚ), (1 : ℚ)), (1, 0, 1)] : List Node).length,
        tagOf [((0 : ℚ), (0 : ℚ), (1 : ℚ)), (1, 0, 1)] i = 0 →
        u i k = rowDot 2 (identityM 2) i (fun j =>
          rowDot 2 (matAdd 2 (smulM 2 2 (identityM 2)) K) j
            (fun l => u l (k - 1)) -
          u j (k - 2))) ∧
      (∀ k, 1 ≤ k → k < 3 →
        ∀ i < ([((0 : ℚ), (0 : ℚ), (1 : ℚ)), (1, 0, 1)] : List Node).length,
        (tagOf [((0 : ℚ), (0 : ℚ), (1 : ℚ)), (1, 0, 1)] i = 1 ∨
          tagOf [((0 : ℚ), (0 : ℚ), (1 : ℚ)), (1, 0, 1)] i = 2) →
        u i k = (fun x _ s _ => x + s)
          (xOf [((0 : ℚ), (0 : ℚ), (1 : ℚ)), (1, 0, 1)] i)
          (yOf [((0 : ℚ), (0 : ℚ), (1 : ℚ)), (1, 0, 1)] i)
          ((k : ℚ) / ((3 : ℚ) - 1)) 0)) :=
  ⟨⟨by norm_num, by norm_num⟩,
    C10_timederivative2_two_step_scheme (fun M => M)
      [((0 : ℚ), (0 : ℚ), (1 : ℚ)), (1, 0, 1)] (fun x _ s _ => x + s)
      (fun _ y s _ => y * s) 0 [0, 0, 2, 0, 2, 0] 0 3
      (by norm_num) (by norm_num)⟩

end MGFD
